import Mathlib

/-!
Verification development for the HTML-Conversion repository's core:
the HTML/CSS sanitization pipeline (`src/utils/sanitizers.py`,
`src/utils/css_sanitizer.py`) and the multi-tier cache manager
(`src/utils/cache_manager.py`).

The Python code is shallowly embedded: strings are `String`/`List Char`,
Python dicts are association lists, wall-clock times are `Int`, and
fallible external calls are made explicit (an `Except` result for the
sanitizer, boolean fault flags for cache tiers).  The regular-expression
substitutions of `HTMLSanitizer.sanitize` are embedded as executable
matchers specialized to the exact patterns appearing in the source,
with Python `re.sub` semantics (leftmost, non-overlapping, single pass,
continuing after each removed match).
-/

namespace HtmlConv

/-! ## Case-insensitive string primitives (Python `re.IGNORECASE` on ASCII) -/

/-- Lower-case a character list (ASCII case folding, as `re.IGNORECASE`
and Python `str.lower` behave on the ASCII patterns used by the source). -/
def lcL (s : List Char) : List Char := s.map Char.toLower

/-- `p` is a case-insensitive prefix of `s`. -/
def prefCI (p s : List Char) : Bool := (lcL p).isPrefixOf (lcL s)

/-- `p` occurs case-insensitively somewhere in `s`. -/
def occursCI (p : List Char) : List Char → Bool
  | [] => prefCI p []
  | c :: rest => prefCI p (c :: rest) || occursCI p rest

/-- First index at which `p` occurs case-insensitively in `s`. -/
def findCI (p : List Char) : List Char → Option Nat
  | [] => if prefCI p [] then some 0 else none
  | c :: rest =>
      if prefCI p (c :: rest) then some 0
      else (findCI p rest).map (· + 1)

/-- String-level case-insensitive containment. -/
def containsCI (s p : String) : Bool := occursCI p.data s.data

/-! ## `re.sub(pattern, '', text)` embedding

A matcher receives the suffix of the text starting at the current
position and returns the length of the match at that position, if any.
`subAllGo` implements Python `re.sub` with empty replacement: scan left
to right, remove each leftmost match, continue scanning right after the
removed region. -/

/-- One global substitution pass with empty replacement (Python
`re.sub(pat, '', s)` for the patterns embedded below, none of which can
match the empty string).  Structural recursion on a fuel argument so
that the definition reduces inside the kernel; the fuel is always
initialized to the length of the scanned list, which suffices because
each step consumes at least one character. -/
def subAllFuel (m : List Char → Option Nat) : Nat → List Char → List Char
  | _, [] => []
  | 0, _ :: _ => []
  | fuel + 1, c :: rest =>
      match m (c :: rest) with
      | some (l + 1) => subAllFuel m fuel (rest.drop l)
      | _ => c :: subAllFuel m fuel rest

/-- One `re.sub(pat, '', ·)` pass over a character list. -/
def subAllGo (m : List Char → Option Nat) (s : List Char) : List Char :=
  subAllFuel m s.length s

/-- Matcher for a case-insensitive literal pattern. -/
def litM (p : List Char) (s : List Char) : Option Nat :=
  if prefCI p s then some p.length else none

/-- Python `\s` character class (` \t\n\r\f\v`). -/
def isWS (c : Char) : Bool :=
  c = ' ' || c = '\t' || c = '\n' || c = '\r' || c = '\x0c' || c = '\x0b'

/-- Matcher for `name\s*\(.*?\)` with `re.DOTALL` (used for
`alert\s*\(.*?\)` and `fetch\s*\(.*?\)` in `HTMLSanitizer.sanitize`):
the literal name, optional whitespace, `(`, then a lazy run of
arbitrary characters up to the first `)`. -/
def callM (p : List Char) (s : List Char) : Option Nat :=
  if prefCI p s then
    let r1 := s.drop p.length
    let w := (r1.takeWhile isWS).length
    match r1.drop w with
    | '(' :: r3 =>
        match r3.findIdx? (· = ')') with
        | some j => some (p.length + w + 1 + j + 1)
        | none => none
    | _ => none
  else none

/-- Matcher for `name\s*=\s*".*?"` (used for `onclick`/`onerror`
handler patterns in `HTMLSanitizer.sanitize`). -/
def attrM (p : List Char) (s : List Char) : Option Nat :=
  if prefCI p s then
    let r1 := s.drop p.length
    let w1 := (r1.takeWhile isWS).length
    match r1.drop w1 with
    | '=' :: r3 =>
        let w2 := (r3.takeWhile isWS).length
        match r3.drop w2 with
        | '"' :: r5 =>
            match r5.findIdx? (· = '"') with
            | some j => some (p.length + w1 + 1 + w2 + 1 + j + 1)
            | none => none
        | _ => none
    | _ => none
  else none

/-- Matcher for `A.*?>.*?C` with `re.DOTALL` (used for
`<script.*?>.*?</script>` and `<iframe.*?>.*?</iframe>`): the literal
opening fragment, a lazy run up to the first `>`, then a lazy run up to
the first occurrence of the closing literal.  For this pattern shape,
lazy backtracking coincides with taking the first `>` and then the
first closing literal after it. -/
def tagPairM (openTag closeTag : List Char) (s : List Char) : Option Nat :=
  if prefCI openTag s then
    let r1 := s.drop openTag.length
    match r1.findIdx? (· = '>') with
    | some j =>
        let r2 := r1.drop (j + 1)
        match findCI closeTag r2 with
        | some k => some (openTag.length + j + 1 + k + closeTag.length)
        | none => none
    | none => none
  else none

/-- One `re.sub` pass over a `String`. -/
def reSub (m : List Char → Option Nat) (s : String) : String :=
  ⟨subAllGo m s.data⟩

/-! ## `HTMLSanitizer.sanitize` (src/utils/sanitizers.py, lines 42-91) -/

/-- `re.sub(r'<script.*?>.*?</script>', '', s, flags=re.IGNORECASE|re.DOTALL)`. -/
def subScript (s : String) : String :=
  reSub (tagPairM "<script".data "</script>".data) s

/-- `re.sub(r'javascript:', '', s, flags=re.IGNORECASE|re.DOTALL)` —
the fifth entry of `dangerous_patterns`, singled out for the analysis
of claim C1. -/
def subJavascript (s : String) : String :=
  reSub (litM "javascript:".data) s

/-- The `dangerous_patterns` list of `HTMLSanitizer.sanitize`, in source
order, as matchers. -/
def dangerousSubs : List (List Char → Option Nat) :=
  [ callM "alert".data
  , callM "fetch".data
  , attrM "onclick".data
  , attrM "onerror".data
  , litM "javascript:".data
  , tagPairM "<iframe".data "</iframe>".data
  , litM "XSS".data
  , litM "maliciousFunction".data
  , litM "stealData".data
  , litM "document.cookie".data ]

/-- The final regex sweep of `HTMLSanitizer.sanitize`: the
`<script>` block removal followed by one `re.sub` pass per entry of
`dangerous_patterns`, in order. -/
def finalSweep (s : String) : String :=
  dangerousSubs.foldl (fun t m => reSub m t) (subScript s)

/-- Default `SecurityConfig.max_text_length`
(src/models/style_models.py line 100). -/
def maxTextLength : Nat := 1000000

/-- Default `SecurityConfig.allowed_html_tags`
(src/models/style_models.py lines 101-104). -/
def allowedHtmlTags : List (List Char) :=
  [ "p", "br", "strong", "em", "u", "h1", "h2", "h3", "h4", "h5", "h6",
    "ul", "ol", "li", "blockquote", "a", "img", "div", "span", "code",
    "pre" ].map String.data

/-- Tag name of the text between `<` and `>` (optional leading `/`,
then alphanumeric name characters), lower-cased. -/
def tagNameOf (seg : List Char) : List Char :=
  let seg1 := if seg.head? = some '/' then seg.tail else seg
  lcL (seg1.takeWhile fun c => c.isAlpha || c.isDigit)

/-- Modelled from the spec: the structural tag-filtering passes of
`HTMLSanitizer.sanitize` (spec §4.1 passes 2-4), performed in the source
by the third-party libraries `bleach.clean` and
`html_sanitizer.Sanitizer.sanitize`, which are not part of this
repository.  Text nodes pass through unchanged; a markup segment
`<...>` is kept when its tag name is in `allowed_html_tags` and dropped
otherwise; an unterminated `<` discards the malformed remainder
(spec: "Unknown/unparseable fragments are dropped, not passed
through").  Attribute-level and URL-level filtering inside retained
tags is not needed by any claim settled against this model and is
omitted. -/
def structuralFuel : Nat → List Char → List Char
  | _, [] => []
  | 0, _ :: _ => []
  | fuel + 1, '<' :: rest =>
      match rest.findIdx? (· = '>') with
      | some j =>
          let inner := rest.take j
          let restAfter := rest.drop (j + 1)
          if allowedHtmlTags.contains (tagNameOf inner) then
            ('<' :: inner) ++ ('>' :: structuralFuel fuel restAfter)
          else structuralFuel fuel restAfter
      | none => []
  | fuel + 1, c :: rest => c :: structuralFuel fuel rest

/-- The concrete model of the two structural library passes, as a
possibly-failing external computation (`none` models the libraries
raising; this concrete model itself always succeeds). -/
def structuralPasses (s : String) : Option String :=
  some ⟨structuralFuel s.data.length s.data⟩

/-- Modelled from the spec: the fail-closed fallback
`bleach.clean(html_content, tags=[], attributes={}, strip=True)` of the
`except` branch — `bleach` is a third-party library; the spec describes
the fallback as "stripping ALL markup".  Every `<...>` segment is
dropped and text is kept. -/
def stripAllFuel : Nat → List Char → List Char
  | _, [] => []
  | 0, _ :: _ => []
  | fuel + 1, '<' :: rest =>
      match rest.findIdx? (· = '>') with
      | some j => stripAllFuel fuel (rest.drop (j + 1))
      | none => []
  | fuel + 1, c :: rest => c :: stripAllFuel fuel rest

/-- The fallback `bleach.clean(..., tags=[], strip=True)` on a `String`. -/
def stripAllMarkup (s : String) : String := ⟨stripAllFuel s.data.length s.data⟩

/-- The error surfaced by `HTMLSanitizer.sanitize`: the `ValueError`
raised when the content exceeds `max_text_length`. -/
inductive SanitizeError
  | contentTooLarge
deriving DecidableEq, Repr

/-- `HTMLSanitizer.sanitize` (src/utils/sanitizers.py lines 42-91),
parameterized by the behaviour of the two structural library passes
(`pass2 = some cleaned` models `bleach.clean` then
`html_sanitizer.sanitize` returning `cleaned`; `pass2 = none` models
either library raising, which the source catches with
`except Exception`).  The pre-check `_validate_content` only logs and
never alters data or raises, so it has no counterpart in the result. -/
def sanitizeCore (pass2 : String → Option String) (maxLen : Nat)
    (input : String) : Except SanitizeError String :=
  if input.isEmpty then .ok ""
  else if input.length > maxLen then .error .contentTooLarge
  else
    match pass2 input with
    | some cleaned => .ok (finalSweep cleaned)
    | none => .ok (stripAllMarkup input)

/-- `HTMLSanitizer.sanitize` with the concrete structural-pass model
and the default configuration. -/
def sanitize (input : String) : Except SanitizeError String :=
  sanitizeCore structuralPasses maxTextLength input

/-- `HTMLSanitizer.sanitize` on a Python optional argument:
`if not html_content: return ""` maps `None` to the empty string. -/
def sanitizePy : Option String → Except SanitizeError String
  | none => .ok ""
  | some s => sanitize s

/-! ## `CSSSanitizer` (src/utils/css_sanitizer.py)

The source parses CSS with the third-party library `tinycss2`, which is
not part of this repository.  The declaration-list and stylesheet
parsing is modelled from the spec (§4.2: "split on `;`, then on the
first `:`; trim whitespace"; rules are recognized by `{`/`}`).  The
allow-list, the dangerous-pattern scan, the safe-URL grammar and the
value post-processing are translated from the source. -/

/-- Python `str.strip()` from the left. -/
def trimL (s : List Char) : List Char := s.dropWhile isWS

/-- Python `str.strip()` from the right. -/
def trimR (s : List Char) : List Char := (trimL s.reverse).reverse

/-- Python `str.strip()`. -/
def trimB (s : List Char) : List Char := trimR (trimL s)

/-- Length of the leading whitespace run. -/
def wsRun (s : List Char) : Nat := (s.takeWhile isWS).length

/-- Head-anchored matcher for `lit\s*c` (e.g. `javascript\s*:`,
`expression\s*\(`). -/
def seqWsChar (p : List Char) (c : Char) (s : List Char) : Bool :=
  prefCI p s &&
    (let r := s.drop p.length
     (r.drop (wsRun r)).head? = some c)

/-- `∃` split `s = u ++ v` with no newline in `u` and `f v`: the
search semantics of `.*X` without `re.DOTALL`. -/
def dotStarReach (f : List Char → Bool) : List Char → Bool
  | [] => f []
  | c :: rest => f (c :: rest) || (c ≠ '\n' && dotStarReach f rest)

/-- `f` holds at some suffix position of `s` (the semantics of
`re.search`). -/
def anyPos (f : List Char → Bool) : List Char → Bool
  | [] => f []
  | c :: rest => f (c :: rest) || anyPos f rest

/-- Head-anchored matcher for `data\s*:.*script`. -/
def dataScriptM (s : List Char) : Bool :=
  prefCI "data".data s &&
    (let r := s.drop 4
     match r.drop (wsRun r) with
     | ':' :: r3 => dotStarReach (fun t => prefCI "script".data t) r3
     | _ => false)

/-- Head-anchored matcher for `@media\s+.*\(\s*device`. -/
def mediaDeviceM (s : List Char) : Bool :=
  prefCI "@media".data s &&
    (let r := s.drop 6
     let w := wsRun r
     decide (1 ≤ w) &&
       dotStarReach
         (fun t =>
           match t with
           | '(' :: t2 => prefCI "device".data (t2.drop (wsRun t2))
           | _ => false)
         (r.drop w))

/-- Drop one leading `"` or `'` if present (the `["\']?` regex atom). -/
def dropOneQuoteL (s : List Char) : List Char :=
  match s with
  | '"' :: t => t
  | '\'' :: t => t
  | _ => s

/-- Head-anchored matcher for
`url\s*\(\s*["\']?\s*data\s*:.*script`. -/
def urlDataScriptM (s : List Char) : Bool :=
  prefCI "url".data s &&
    (let r := s.drop 3
     match r.drop (wsRun r) with
     | '(' :: r3 =>
         let r4 := r3.drop (wsRun r3)
         let r5 := dropOneQuoteL r4
         let r6 := r5.drop (wsRun r5)
         dataScriptM r6
     | _ => false)

/-- Head-anchored disjunction of the eleven `dangerous_patterns` of
`CSSSanitizer` (src/utils/css_sanitizer.py lines 44-59), compiled in
the source as one alternation with `re.IGNORECASE`. -/
def cssDangerousAt (s : List Char) : Bool :=
  seqWsChar "javascript".data ':' s ||
  seqWsChar "expression".data '(' s ||
  prefCI "@import".data s ||
  mediaDeviceM s ||
  seqWsChar "behavior".data ':' s ||
  prefCI "-moz-binding".data s ||
  dataScriptM s ||
  seqWsChar "vbscript".data ':' s ||
  seqWsChar "mocha".data ':' s ||
  seqWsChar "livescript".data ':' s ||
  urlDataScriptM s

/-- `self.dangerous_regex.search(css_content)`. -/
def cssDangerousSearch (s : List Char) : Bool := anyPos cssDangerousAt s

/-- `CSSSanitizer.allowed_properties`
(src/utils/css_sanitizer.py lines 18-41). -/
def cssAllowedProperties : List (List Char) :=
  [ "color", "font-family", "font-size", "font-weight", "font-style",
    "line-height", "letter-spacing", "text-align", "text-decoration",
    "text-transform", "text-indent", "word-spacing",
    "margin", "margin-top", "margin-right", "margin-bottom", "margin-left",
    "padding", "padding-top", "padding-right", "padding-bottom",
    "padding-left", "border", "border-radius", "width", "height",
    "max-width", "max-height", "min-width", "min-height", "display",
    "overflow", "overflow-x", "overflow-y",
    "background", "background-color", "background-image",
    "background-size", "background-position", "background-repeat",
    "opacity", "box-shadow", "border-color", "border-style",
    "border-width",
    "flex", "flex-direction", "justify-content", "align-items",
    "align-content", "flex-wrap", "gap",
    "transition", "transform" ].map String.data

/-- `_is_safe_declaration`: the case-folded, stripped property name is
in the allow-list (src/utils/css_sanitizer.py lines 188-197). -/
def isAllowedProp (name : List Char) : Bool :=
  cssAllowedProperties.contains (trimB (lcL name))

/-- `safe_url_pattern`
(`^https?://[^\s<>"\']+$|^data:image/[^;]+;base64,[A-Za-z0-9+/=]+$`,
src/utils/css_sanitizer.py line 62; case-sensitive). -/
def safeUrl (u : List Char) : Bool :=
  (let rest? : Option (List Char) :=
     if "https://".data.isPrefixOf u then some (u.drop 8)
     else if "http://".data.isPrefixOf u then some (u.drop 7)
     else none
   match rest? with
   | some r =>
       decide (r ≠ []) &&
         r.all fun c => !(isWS c) && c ≠ '<' && c ≠ '>' && c ≠ '"' && c ≠ '\''
   | none => false) ||
  ("data:image/".data.isPrefixOf u &&
    (let r := u.drop 11
     let sub := r.takeWhile (· ≠ ';')
     let r2 := r.drop sub.length
     decide (sub ≠ []) && ";base64,".data.isPrefixOf r2 &&
       (let pay := r2.drop 8
        decide (pay ≠ []) &&
          pay.all fun c => c.isAlpha || c.isDigit || c = '+' || c = '/' || c = '=')))

/-- Strip all leading/trailing `"`/`'` characters
(Python `str.strip('"\'')`). -/
def trimQuotes (s : List Char) : List Char :=
  let isQ : Char → Bool := fun c => c = '"' || c = '\''
  ((s.dropWhile isQ).reverse.dropWhile isQ).reverse

/-- Matcher for the value-level URL rewrite
`url\s*\(\s*["\']?([^)]+?)["\']?\s*\)` of `_sanitize_value`
(src/utils/css_sanitizer.py lines 210-224): the region from `url(` to
the first `)`; the captured URL is modelled as the text between the
parentheses stripped of surrounding whitespace and quote characters
(which is what `group(1).strip().strip('"\'')` computes).  The match
is kept verbatim when the URL passes `safe_url_pattern` and replaced
by the empty string otherwise. -/
def urlSubM (s : List Char) : Option (Nat × List Char) :=
  if prefCI "url".data s then
    let r := s.drop 3
    let w := wsRun r
    match r.drop w with
    | '(' :: r3 =>
        match r3.findIdx? (· = ')') with
        | some j =>
            if j = 0 then none
            else
              let inner := r3.take j
              let url := trimQuotes (trimB inner)
              let len := 3 + w + 1 + j + 1
              some (len, if safeUrl url then s.take len else [])
        | none => none
    | _ => none
  else none

/-- One `re.sub` pass with a match-dependent replacement (used for the
URL rewrite, whose replacement is the match itself or empty). -/
def subRepFuel (m : List Char → Option (Nat × List Char)) :
    Nat → List Char → List Char
  | _, [] => []
  | 0, _ :: _ => []
  | fuel + 1, c :: rest =>
      match m (c :: rest) with
      | some (l + 1, rep) => rep ++ subRepFuel m fuel (rest.drop l)
      | _ => c :: subRepFuel m fuel rest

/-- `[\u0000-\u001f\u007f-\u009f﻿]` — the character class removed
by `_validate_property_specific`. -/
def isCtrlBad (c : Char) : Bool :=
  c.toNat ≤ 31 || (127 ≤ c.toNat && c.toNat ≤ 159) || c.toNat = 65279

/-- `_validate_property_specific`
(src/utils/css_sanitizer.py lines 226-240): strip, truncate values
longer than 200 characters (returning immediately, as the source
does), otherwise remove suspicious control characters. -/
def validatePropertySpecific (v : List Char) : List Char :=
  let v1 := trimB v
  if 200 < v1.length then v1.take 200
  else if v1.any isCtrlBad then v1.filter fun c => !(isCtrlBad c)
  else v1

/-- `_sanitize_value` (src/utils/css_sanitizer.py lines 199-224) on the
serialized value text: dangerous-pattern scan, URL rewrite, then
property-specific post-processing.  The `tinycss2.serialize` of the
value tokens is modelled as the raw value text, stripped. -/
def sanitizeValue (raw : List Char) : List Char :=
  let vs := trimB raw
  if cssDangerousSearch vs then []
  else validatePropertySpecific (subRepFuel urlSubM vs.length vs)

/-- Split on `;` (Python `str.split(';')` / the `;`-separated
declarations recognized by `tinycss2.parse_declaration_list` as
modelled from spec §4.2). -/
def splitOnSemi : List Char → List (List Char)
  | [] => [[]]
  | c :: rest =>
      if c = ';' then [] :: splitOnSemi rest
      else
        match splitOnSemi rest with
        | piece :: more => (c :: piece) :: more
        | [] => [[c]]

/-- Text before the first `:`. -/
def beforeColon : List Char → List Char
  | [] => []
  | c :: rest => if c = ':' then [] else c :: beforeColon rest

/-- Text after the first `:`, or `none` when there is no `:`. -/
def afterColon : List Char → Option (List Char)
  | [] => none
  | c :: rest => if c = ':' then some rest else afterColon rest

/-- Modelled from the spec: `tinycss2.parse_declaration_list`, per
§4.2 ("split on `;`, then on the first `:`; trim whitespace").
Segments without a `:` are parse errors and yield no declaration. -/
def parseDeclList (cs : List Char) : List (List Char × List Char) :=
  (splitOnSemi cs).filterMap fun seg =>
    match afterColon seg with
    | some v => some (trimB (beforeColon seg), v)
    | none => none

/-- The declarations surviving `_sanitize_inline_styles` /
`_sanitize_declarations` (src/utils/css_sanitizer.py lines 116-135 and
162-180): name must pass `_is_safe_declaration`, and the sanitized
value must be non-empty. -/
def sanitizeDeclPairs (cs : List Char) : List (List Char × List Char) :=
  (parseDeclList cs).filterMap fun d =>
    if isAllowedProp d.1 then
      let sv := sanitizeValue d.2
      if sv.isEmpty then none else some (d.1, sv)
    else none

/-- `"; ".join(...)` over rendered `f"{name}: {value}"` declarations. -/
def renderDecls : List (List Char × List Char) → List Char
  | [] => []
  | [d] => d.1 ++ ':' :: ' ' :: d.2
  | d :: d2 :: more => (d.1 ++ ':' :: ' ' :: d.2) ++ ';' :: ' ' :: renderDecls (d2 :: more)

/-- `_sanitize_inline_styles` (src/utils/css_sanitizer.py lines
116-135). -/
def sanitizeInline (cs : List Char) : List Char :=
  renderDecls (sanitizeDeclPairs cs)

/-- `_is_safe_selector` (src/utils/css_sanitizer.py lines 142-160):
none of `javascript\s*:`, `expression\s*\(`, `@import`,
`url\s*\(\s*["\']?\s*javascript` occurs in the selector. -/
def isSafeSelector (sel : List Char) : Bool :=
  !(anyPos
      (fun s =>
        seqWsChar "javascript".data ':' s ||
        seqWsChar "expression".data '(' s ||
        prefCI "@import".data s ||
        (prefCI "url".data s &&
          (let r := s.drop 3
           match r.drop (wsRun r) with
           | '(' :: r3 =>
               let r4 := r3.drop (wsRun r3)
               let r5 := dropOneQuoteL r4
               prefCI "javascript".data (r5.drop (wsRun r5))
           | _ => false)))
      sel)

/-- Modelled from the spec: `tinycss2.parse_stylesheet` producing
qualified rules — a rule is a `selector { body }` block (§4.2:
"Distinguish the two forms by presence of `{`/`}`"; "parse into
rules").  A stray `}` inside a prelude restarts the rule after it
(tinycss2 error recovery); an unclosed block yields no rule. -/
def parseRulesFuel : Nat → List Char → List (List Char × List Char)
  | 0, _ => []
  | fuel + 1, s =>
      let sel := s.takeWhile (· ≠ '\x7b')
      match s.drop sel.length with
      | _ :: rest1 =>
          let body := rest1.takeWhile (· ≠ '\x7d')
          match rest1.drop body.length with
          | _ :: rest2 =>
              (((sel.reverse.takeWhile (· ≠ '\x7d')).reverse), body) ::
                parseRulesFuel fuel rest2
          | [] => []
      | [] => []

/-- `"\n".join(...)`. -/
def joinNL : List (List Char) → List Char
  | [] => []
  | [r] => r
  | r :: r2 :: more => r ++ '\n' :: joinNL (r2 :: more)

/-- The rules surviving `_sanitize_stylesheet`
(src/utils/css_sanitizer.py lines 95-114): a rule is kept when its
serialized, stripped selector is safe and at least one declaration of
its body survives. -/
def styleRules (cs : List Char) : List (List Char × List Char) :=
  (parseRulesFuel cs.length cs).filterMap fun r =>
    let sel := trimB r.1
    if isSafeSelector sel then
      let decls := renderDecls (sanitizeDeclPairs r.2)
      if decls.isEmpty then none else some (sel, decls)
    else none

/-- `f"{selector} {{ {declarations} }}"`. -/
def renderRule (r : List Char × List Char) : List Char :=
  r.1 ++ (' ' :: '\x7b' :: ' ' :: r.2) ++ [' ', '\x7d']

/-- `_sanitize_stylesheet`: the surviving rules, rendered and joined
with newlines. -/
def sanitizeStylesheet (cs : List Char) : List Char :=
  joinNL ((styleRules cs).map renderRule)

/-- `CSSSanitizer.sanitize_css` (src/utils/css_sanitizer.py lines
64-93): empty or non-string input yields `""`; any match of the
compiled dangerous-pattern alternation rejects the whole input; inputs
containing both `{` and `}` are treated as stylesheets, all others as
inline declaration lists. -/
def sanitizeCss (s : String) : String :=
  if s.isEmpty then ""
  else if cssDangerousSearch s.data then ""
  else if s.data.contains '\x7b' && s.data.contains '\x7d' then
    ⟨sanitizeStylesheet s.data⟩
  else ⟨sanitizeInline s.data⟩

/-! ## `HTMLSanitizer.sanitize_style_attribute`
(src/utils/sanitizers.py lines 93-140) -/

/-- The style-attribute allow-list local to
`HTMLSanitizer.sanitize_style_attribute`. -/
def styleAttrAllowed : List (List Char) :=
  [ "color", "background-color", "font-family", "font-size",
    "font-weight", "text-align", "line-height", "letter-spacing",
    "margin", "padding", "border-radius", "max-width", "width",
    "height", "display", "text-decoration", "border", "box-shadow",
    "opacity" ].map String.data

/-- The substring deny-list of `sanitize_style_attribute`, checked
against the lower-cased input. -/
def styleAttrDangerous : List (List Char) :=
  [ "javascript:", "expression(", "import", "@import", "url(",
    "behavior:", "-moz-binding", "position:", "absolute",
    "fixed" ].map String.data

/-- Case-sensitive substring occurrence (Python `in` on strings). -/
def occursP (p : List Char) (s : List Char) : Bool :=
  anyPos (fun t => p.isPrefixOf t) s

/-- `_validate_css_value` (src/utils/sanitizers.py lines 158-181). -/
def validateCssValue (key value : List Char) : Bool :=
  let vl := lcL value
  let dangers := ["javascript:", "expression(", "url("].map String.data
  if dangers.any (fun d => occursP d vl) then false
  else if key = "color".data || key = "background-color".data then
    "#".data.isPrefixOf value || "rgb".data.isPrefixOf value ||
      (["white", "black", "red", "green", "blue", "transparent"].map
        String.data).contains value
  else if key = "font-size".data then
    (["px", "em", "rem", "%"].map String.data).any
      fun u => u.reverse.isPrefixOf value.reverse
  else if (["margin", "padding", "width", "height", "max-width"].map
      String.data).contains key then
    value = "auto".data ||
      (["px", "%", "em", "rem"].map String.data).any
        fun u => u.reverse.isPrefixOf value.reverse
  else true

/-- `HTMLSanitizer.sanitize_style_attribute`
(src/utils/sanitizers.py lines 93-140): empty input yields `""`; any
deny-list substring in the lower-cased input yields `""`; otherwise
split on `;`, split each piece at the first `:`, keep pairs whose
lower-cased stripped key is allowed, whose value is non-empty and
passes `_validate_css_value`, re-joined with `"; "`. -/
def sanitizeStyleAttribute (s : String) : String :=
  if s.isEmpty then ""
  else if styleAttrDangerous.any (fun p => occursP p (lcL s.data)) then ""
  else
    ⟨renderDecls
      ((splitOnSemi s.data).filterMap fun piece =>
        match afterColon piece with
        | some v =>
            let key := trimB (lcL (beforeColon piece))
            let value := trimB v
            if styleAttrAllowed.contains key && !value.isEmpty &&
                validateCssValue key value then
              some (key, value)
            else none
        | none => none)⟩

/-- The `property: value` declarations present in a CSS output string:
when the output contains rule braces, the declarations of each rule
body; otherwise the output parsed as one declaration list (the same
modelled parser used on input). -/
def cssOutputDecls (o : String) : List (List Char × List Char) :=
  if o.data.contains '\x7b' && o.data.contains '\x7d' then
    (parseRulesFuel o.data.length o.data).flatMap fun r => parseDeclList r.2
  else parseDeclList o.data

/-! ## `CacheManager` (src/utils/cache_manager.py)

The three tiers are embedded as association lists (the in-process
dict, the `diskcache` store, the Redis store).  Wall-clock time
(`time.time()`) is an explicit `Int` argument.  External tier calls
that the source wraps in `try/except` carry explicit boolean fault
flags: a raised exception in the source corresponds to the flag being
`true`, after which control continues exactly where the `except`
branch resumes. -/

/-- A cache entry as built by `CacheManager.set`:
`{'value': ..., 'timestamp': time.time(), 'ttl': ttl}`. -/
structure CacheEntry where
  value : String
  timestamp : Int
  ttl : Int
deriving DecidableEq, Repr

/-- `_is_expired` (src/utils/cache_manager.py lines 241-246):
`(current_time - entry['timestamp']) > entry['ttl']`. -/
def isExpired (e : CacheEntry) (now : Int) : Bool :=
  decide (e.ttl < now - e.timestamp)

/-- Dictionary lookup. -/
def alookup (k : String) : List (String × CacheEntry) → Option CacheEntry
  | [] => none
  | (k2, e) :: rest => if k2 = k then some e else alookup k rest

/-- Dictionary assignment `d[k] = e` (replace or append). -/
def ainsert (k : String) (e : CacheEntry) :
    List (String × CacheEntry) → List (String × CacheEntry)
  | [] => [(k, e)]
  | (k2, e2) :: rest =>
      if k2 = k then (k2, e) :: rest else (k2, e2) :: ainsert k e rest

/-- Dictionary deletion `del d[k]` (no-op when absent, matching the
guarded deletes of the source; a Python dict binds each key at most
once, so removing every binding is the dict semantics). -/
def aerase (k : String) : List (String × CacheEntry) → List (String × CacheEntry)
  | [] => []
  | (k2, e) :: rest => if k2 = k then aerase k rest else (k2, e) :: aerase k rest

/-- The sixteen lower-case hexadecimal digits. -/
def hexDigitChar (n : Nat) : Char := "0123456789abcdef".data.getD n '0'

/-- Modelled from the spec: `hashlib.sha256(key.encode()).hexdigest()`
— SHA-256 itself is a Python-library primitive outside this
repository; the spec requires only "a fixed-width content hash of the
key".  Modelled as an FNV-style mixing function reduced mod 2^256. -/
def hashMix (s : List Char) : Nat :=
  s.foldl (fun a c => (a * 1099511628211 + c.toNat) % 2 ^ 256)
    14695981039346656037

/-- The 64-character lower-case hex digest of the modelled content
hash. -/
def sha256hex (s : String) : String :=
  ⟨(List.range 64).map fun i => hexDigitChar (hashMix s.data / 16 ^ (63 - i) % 16)⟩

/-- `_normalize_key` (src/utils/cache_manager.py lines 234-239): keys
longer than 250 characters are replaced by the hex digest of their
hash; other keys have spaces replaced by `_` and are lower-cased. -/
def normalizeKey (k : String) : String :=
  if 250 < k.length then sha256hex k
  else ⟨lcL (k.data.map fun c => if c = ' ' then '_' else c)⟩

/-- The mutable state of a `CacheManager`: the three tiers (with the
availability of the disk and Redis tiers fixed at construction) and
the `stats` counters initialized in `__init__`
(src/utils/cache_manager.py lines 58-65). -/
structure CMState where
  memory : List (String × CacheEntry)
  diskAvail : Bool
  disk : List (String × CacheEntry)
  redisAvail : Bool
  redis : List (String × CacheEntry)
  hits : Nat
  misses : Nat
  memoryHits : Nat
  diskHits : Nat
  redisHits : Nat
deriving DecidableEq, Repr

/-- Fault flags for the external calls of one `get`: `diskGetRaises`
models `self.disk_cache.get` raising, `redisGetRaises` models
`self.redis_cache.get`/`json.loads` raising, `diskPromoteRaises`
models the promotion write `self.disk_cache.set` inside the Redis hit
block raising. -/
structure GetFaults where
  diskGetRaises : Bool
  redisGetRaises : Bool
  diskPromoteRaises : Bool
deriving DecidableEq, Repr

/-- A fault-free probe. -/
def noGetFaults : GetFaults := ⟨false, false, false⟩

/-- Fault flags for the tier writes of one `set`. -/
structure SetFaults where
  diskSetRaises : Bool
  redisSetRaises : Bool
deriving DecidableEq, Repr

/-- A fault-free write. -/
def noSetFaults : SetFaults := ⟨false, false⟩

/-- The `# Cache miss` tail of `CacheManager.get`. -/
def missResult (st : CMState) : Option String × CMState :=
  (none, { st with misses := st.misses + 1 })

/-- The `# Level 3: Redis cache` block of `CacheManager.get`
(src/utils/cache_manager.py lines 96-112): on an unexpired hit the
entry is promoted to memory and (when available) disk before the
counters are updated; an exception anywhere in the block falls through
to the miss tail, keeping whatever promotion already happened; an
expired entry is skipped, not deleted. -/
def redisPhase (st : CMState) (k : String) (now : Int) (f : GetFaults) :
    Option String × CMState :=
  if st.redisAvail && !f.redisGetRaises then
    match alookup k st.redis with
    | some e =>
        if isExpired e now then missResult st
        else
          let st1 := { st with memory := ainsert k e st.memory }
          if st1.diskAvail then
            if f.diskPromoteRaises then missResult st1
            else
              let st2 := { st1 with disk := ainsert k e st1.disk }
              (some e.value,
                { st2 with hits := st2.hits + 1, redisHits := st2.redisHits + 1 })
          else
            (some e.value,
              { st1 with hits := st1.hits + 1, redisHits := st1.redisHits + 1 })
    | none => missResult st
  else missResult st

/-- The `# Level 2: Disk cache` block of `CacheManager.get`
(src/utils/cache_manager.py lines 81-94): an unexpired hit is promoted
to memory; an expired or absent entry (or a raising `get`) falls
through to the Redis block — the expired disk entry is not deleted. -/
def diskPhase (st : CMState) (k : String) (now : Int) (f : GetFaults) :
    Option String × CMState :=
  if st.diskAvail && !f.diskGetRaises then
    match alookup k st.disk with
    | some e =>
        if isExpired e now then redisPhase st k now f
        else
          let st1 := { st with memory := ainsert k e st.memory }
          (some e.value,
            { st1 with hits := st1.hits + 1, diskHits := st1.diskHits + 1 })
    | none => redisPhase st k now f
  else redisPhase st k now f

/-- `CacheManager.get` (src/utils/cache_manager.py lines 67-117).
Returns the Python return value (`none` is the `default`) paired with
the state after the call.  An expired entry found in the memory tier
is deleted before probing continues. -/
def cmGet (st : CMState) (key : String) (now : Int) (f : GetFaults) :
    Option String × CMState :=
  match alookup (normalizeKey key) st.memory with
  | some e =>
      if isExpired e now then
        diskPhase { st with memory := aerase (normalizeKey key) st.memory }
          (normalizeKey key) now f
      else
        (some e.value,
          { st with hits := st.hits + 1, memoryHits := st.memoryHits + 1 })
  | none => diskPhase st (normalizeKey key) now f

/-- `CacheManager.set` (src/utils/cache_manager.py lines 119-156): the
memory tier is written first and cannot fail; the disk and Redis
writes follow independently, each swallowing its own exceptions; the
returned `success` reflects only the memory write. -/
def cmSet (st : CMState) (key value : String) (ttl now : Int)
    (f : SetFaults) : Bool × CMState :=
  let k := normalizeKey key
  let e : CacheEntry := ⟨value, now, ttl⟩
  let st1 := { st with memory := ainsert k e st.memory }
  let st2 :=
    if st1.diskAvail && !f.diskSetRaises then
      { st1 with disk := ainsert k e st1.disk }
    else st1
  let st3 :=
    if st2.redisAvail && !f.redisSetRaises then
      { st2 with redis := ainsert k e st2.redis }
    else st2
  (true, st3)

/-- `CacheManager.delete` (src/utils/cache_manager.py lines 158-182):
remove the key from every available tier; `success` reflects presence
in the memory tier. -/
def cmDelete (st : CMState) (key : String) : Bool × CMState :=
  let k := normalizeKey key
  let success := (alookup k st.memory).isSome
  let st1 := { st with memory := aerase k st.memory }
  let st2 := if st1.diskAvail then { st1 with disk := aerase k st1.disk } else st1
  let st3 := if st2.redisAvail then { st2 with redis := aerase k st2.redis } else st2
  (success, st3)

/-- `CacheManager.clear` (src/utils/cache_manager.py lines 184-203):
flush every available tier; the counters are untouched. -/
def cmClear (st : CMState) : CMState :=
  { st with
    memory := []
    disk := if st.diskAvail then [] else st.disk
    redis := if st.redisAvail then [] else st.redis }

/-- `CacheManager.cleanup_expired`
(src/utils/cache_manager.py lines 219-232). -/
def cmCleanup (st : CMState) (now : Int) : CMState :=
  { st with memory := st.memory.filter fun p => !(isExpired p.2 now) }

/-- One public `CacheManager` operation together with the time at
which it runs and the fault outcomes of its external calls. -/
inductive CacheOp
  | get (key : String) (now : Int) (f : GetFaults)
  | set (key value : String) (ttl now : Int) (f : SetFaults)
  | del (key : String)
  | clear
  | cleanup (now : Int)

/-- The state transition of one operation (return values discarded). -/
def stepOp (st : CMState) : CacheOp → CMState
  | .get k now f => (cmGet st k now f).2
  | .set k v ttl now f => (cmSet st k v ttl now f).2
  | .del k => (cmDelete st k).2
  | .clear => cmClear st
  | .cleanup now => cmCleanup st now

/-- Run a sequence of operations. -/
def runOps (st : CMState) (ops : List CacheOp) : CMState :=
  ops.foldl stepOp st

/-- A freshly constructed `CacheManager` (`__init__`): empty tiers,
all counters zero; disk and Redis availability are fixed by whether
their initialization succeeded. -/
def initState (diskAvail redisAvail : Bool) : CMState :=
  ⟨[], diskAvail, [], redisAvail, [], 0, 0, 0, 0, 0⟩

/-- The consistency invariant of the `stats` dictionary:
`hits = memory_hits + disk_hits + redis_hits`. -/
def statsConsistent (st : CMState) : Prop :=
  st.hits = st.memoryHits + st.diskHits + st.redisHits

/-- A 251-character key, used to exercise the long-key branch of
`_normalize_key`. -/
def longKeyW : String := ⟨List.replicate 251 'A'⟩

/-- The change a single `get` makes to the `stats` counters: either a
hit (`hits` up by one, `misses` unchanged, exactly one per-tier counter
up by one) or a miss (`misses` up by one, everything else unchanged). -/
def statsDelta (st st2 : CMState) : Prop :=
  (st2.hits = st.hits + 1 ∧ st2.misses = st.misses ∧
    ((st2.memoryHits = st.memoryHits + 1 ∧ st2.diskHits = st.diskHits ∧
        st2.redisHits = st.redisHits) ∨
     (st2.memoryHits = st.memoryHits ∧ st2.diskHits = st.diskHits + 1 ∧
        st2.redisHits = st.redisHits) ∨
     (st2.memoryHits = st.memoryHits ∧ st2.diskHits = st.diskHits ∧
        st2.redisHits = st.redisHits + 1))) ∨
  (st2.hits = st.hits ∧ st2.misses = st.misses + 1 ∧
    st2.memoryHits = st.memoryHits ∧ st2.diskHits = st.diskHits ∧
    st2.redisHits = st.redisHits)

/-- `set`, `delete`, `clear` and `cleanup_expired` never touch the
`stats` counters. -/
def statsEq (st st2 : CMState) : Prop :=
  st2.hits = st.hits ∧ st2.misses = st.misses ∧ st2.memoryHits = st.memoryHits ∧
  st2.diskHits = st.diskHits ∧ st2.redisHits = st.redisHits

/-- A state whose disk tier holds an entry that is expired at time 10
(set at time 0 with ttl 1), with an empty memory tier and no Redis. -/
def c3State : CMState :=
  ⟨[], true, [("k", ⟨"v", 0, 1⟩)], false, [], 0, 0, 0, 0, 0⟩

/-! ## Supporting lemmas -/

theorem charEqOfToNatEq {a b : Char} (h : a.toNat = b.toNat) : a = b :=
  Char.eq_of_val_eq (UInt32.ext h)

theorem toNat_toLower (c : Char) :
    c.toLower.toNat =
      if 65 ≤ c.toNat ∧ c.toNat ≤ 90 then c.toNat + 32 else c.toNat := by
  unfold Char.toLower
  by_cases h : 65 ≤ c.toNat ∧ c.toNat ≤ 90
  · have h2 : c.toNat ≥ 65 ∧ c.toNat ≤ 90 := ⟨h.1, h.2⟩
    rw [if_pos h2, if_pos h]
    have hv : (c.toNat + 32).isValidChar := Or.inl (by omega)
    unfold Char.ofNat
    rw [dif_pos hv]
    rfl
  · have h2 : ¬(c.toNat ≥ 65 ∧ c.toNat ≤ 90) := fun hc => h ⟨hc.1, hc.2⟩
    rw [if_neg h2, if_neg h]

theorem toLower_toLower (c : Char) : c.toLower.toLower = c.toLower := by
  apply charEqOfToNatEq
  rw [toNat_toLower c.toLower, toNat_toLower c]
  by_cases h : 65 ≤ c.toNat ∧ c.toNat ≤ 90
  · rw [if_pos h, if_neg (by omega)]
  · rw [if_neg h, if_neg h]

theorem toLower_ne_space {c : Char} (h : c ≠ ' ') : c.toLower ≠ ' ' := by
  intro hc
  apply h
  apply charEqOfToNatEq
  have h2 : c.toLower.toNat = 32 := by rw [hc]; rfl
  rw [toNat_toLower] at h2
  by_cases h3 : 65 ≤ c.toNat ∧ c.toNat ≤ 90
  · rw [if_pos h3] at h2; omega
  · rw [if_neg h3] at h2; rw [h2]; rfl

theorem alookup_ainsert (k : String) (e : CacheEntry)
    (l : List (String × CacheEntry)) : alookup k (ainsert k e l) = some e := by
  induction l with
  | nil => simp [ainsert, alookup]
  | cons p rest ih =>
      rcases p with ⟨k2, e2⟩
      by_cases h : k2 = k
      · simp [ainsert, alookup, h]
      · simp [ainsert, alookup, h, ih]

theorem cmSet_memory (st : CMState) (key value : String) (ttl now : Int)
    (f : SetFaults) :
    (cmSet st key value ttl now f).2.memory
      = ainsert (normalizeKey key) ⟨value, now, ttl⟩ st.memory := by
  unfold cmSet
  dsimp only
  split <;> split <;> rfl

theorem replChar_ne_space (c : Char) : (if c = ' ' then '_' else c) ≠ ' ' := by
  by_cases h : c = ' '
  · simp [h]
  · rw [if_neg h]; exact h

theorem sha256hex_length (k : String) : (sha256hex k).length = 64 := by
  simp [sha256hex, String.length]

theorem hexDigitChar_fix (n : Nat) :
    (hexDigitChar n).toLower = hexDigitChar n ∧ hexDigitChar n ≠ ' ' := by
  have hmem : hexDigitChar n ∈ "0123456789abcdef".data ∨ hexDigitChar n = '0' := by
    unfold hexDigitChar
    unfold List.getD
    cases h : "0123456789abcdef".data[n]? with
    | some c =>
        left
        have := List.getElem?_mem h
        simpa [h] using this
    | none => right; simp [h]
  have hall : ∀ c ∈ "0123456789abcdef".data, c.toLower = c ∧ c ≠ ' ' := by decide
  rcases hmem with h | h
  · exact hall _ h
  · rw [h]; exact ⟨rfl, by decide⟩

theorem lcRepl_fixed (l : List Char) (h : ∀ c ∈ l, c.toLower = c ∧ c ≠ ' ') :
    lcL (l.map fun c => if c = ' ' then '_' else c) = l := by
  induction l with
  | nil => rfl
  | cons c rest ih =>
      have hc := h c (by simp)
      simp only [List.map_cons, lcL]
      rw [if_neg hc.2]
      have := ih (fun d hd => h d (by simp [hd]))
      simp only [lcL] at this
      rw [hc.1, this]

theorem normalizeKey_short (k : String) (h : k.length ≤ 250) :
    normalizeKey k = ⟨lcL (k.data.map fun c => if c = ' ' then '_' else c)⟩ := by
  unfold normalizeKey
  rw [if_neg (by omega)]

theorem normalizeKey_idem (k : String) :
    normalizeKey (normalizeKey k) = normalizeKey k := by
  unfold normalizeKey
  by_cases h : 250 < k.length
  · rw [if_pos h]
    have hlen : (sha256hex k).length = 64 := sha256hex_length k
    rw [if_neg (by omega)]
    have hfix : ∀ c ∈ (sha256hex k).data, c.toLower = c ∧ c ≠ ' ' := by
      intro c hc
      simp only [sha256hex, List.mem_map] at hc
      obtain ⟨i, _, rfl⟩ := hc
      exact hexDigitChar_fix _
    have := lcRepl_fixed (sha256hex k).data hfix
    rw [this]
  · rw [if_neg h]
    have hk : k.length = k.data.length := rfl
    have hlen :
        (String.mk (lcL (k.data.map fun c => if c = ' ' then '_' else c))).length ≤ 250 := by
      simp only [String.length, lcL, List.length_map]
      omega
    rw [if_neg (by omega)]
    have hfix : ∀ c ∈ (String.mk (lcL (k.data.map fun c => if c = ' ' then '_' else c))).data,
        c.toLower = c ∧ c ≠ ' ' := by
      intro c hc
      simp only [lcL, List.mem_map] at hc
      obtain ⟨a, ⟨b, _, rfl⟩, rfl⟩ := hc
      exact ⟨toLower_toLower _, toLower_ne_space (replChar_ne_space b)⟩
    rw [lcRepl_fixed _ hfix]

theorem normalizeKey_no_space (k : String) :
    ∀ c ∈ (normalizeKey k).data, c ≠ ' ' := by
  unfold normalizeKey
  by_cases h : 250 < k.length
  · rw [if_pos h]
    intro c hc
    simp only [sha256hex, List.mem_map] at hc
    obtain ⟨i, _, rfl⟩ := hc
    exact (hexDigitChar_fix _).2
  · rw [if_neg h]
    intro c hc
    simp only [lcL, List.mem_map] at hc
    obtain ⟨a, ⟨b, _, rfl⟩, rfl⟩ := hc
    exact toLower_ne_space (replChar_ne_space b)


/-! ## Claims -/

/-- Claim C2 (counterexample): for the CSS input
`color: red; behavior: url(evil.htc);`, neither `sanitize_css` nor
`sanitize_style_attribute` returns `color: red` — the claimed output is
wrong on the code. -/
theorem claim_C2_counterexample :
    sanitizeCss "color: red; behavior: url(evil.htc);" ≠ "color: red" ∧
    sanitizeStyleAttribute "color: red; behavior: url(evil.htc);" ≠ "color: red" :=
  ⟨by decide, by decide⟩

/-- Claim C2 (amended): for the CSS input
`color: red; behavior: url(evil.htc);` the CSS filter returns the empty
string: the compiled dangerous-pattern scan (`behavior\s*:`) matches the
whole input, and `sanitize_css` rejects it outright rather than dropping
only the `behavior` declaration; `sanitize_style_attribute` likewise
(its deny-list contains `behavior:` and `url(`). -/
theorem claim_C2_amended :
    sanitizeCss "color: red; behavior: url(evil.htc);" = "" ∧
    sanitizeStyleAttribute "color: red; behavior: url(evil.htc);" = "" :=
  ⟨rfl, rfl⟩

/-- Claim C4: `HTMLSanitizer.sanitize` raises the content-too-large
`ValueError` exactly when the input length exceeds the configured
`max_text_length`; the error is the returned result (nothing is
truncated or partially processed), for any behaviour of the structural
library passes. -/
theorem claim_C4 (pass2 : String → Option String) (maxLen : Nat) (input : String) :
    sanitizeCore pass2 maxLen input = .error .contentTooLarge ↔ maxLen < input.length := by
  unfold sanitizeCore
  by_cases h0 : input.isEmpty
  · rw [if_pos h0]
    have he : input = "" := (String.isEmpty_iff input).mp h0
    subst he
    simp [String.length]
  · rw [if_neg h0]
    by_cases h1 : maxLen < input.length
    · rw [if_pos h1]
      simp [h1]
    · rw [if_neg h1]
      cases hp : pass2 input <;> simp [h1]

/-- Claim C5: for every input within the length limit `sanitize` never
raises (the result is always `.ok`), empty and `None` input return the
empty string, and when the structural library passes fail the result is
the input with all markup stripped — for any behaviour of the library
passes. -/
theorem claim_C5 (pass2 : String → Option String) (maxLen : Nat) :
    (∀ s : String, s.length ≤ maxLen → ∃ out, sanitizeCore pass2 maxLen s = .ok out) ∧
    sanitizeCore pass2 maxLen "" = .ok "" ∧
    sanitizePy none = .ok "" ∧
    (∀ s : String, s.length ≤ maxLen → pass2 s = none →
        sanitizeCore pass2 maxLen s = .ok (stripAllMarkup s)) := by
  refine ⟨?_, ?_, rfl, ?_⟩
  · intro s hs
    unfold sanitizeCore
    by_cases h0 : s.isEmpty
    · rw [if_pos h0]; exact ⟨"", rfl⟩
    · rw [if_neg h0, if_neg (by omega)]
      cases hp : pass2 s
      · exact ⟨_, rfl⟩
      · exact ⟨_, rfl⟩
  · unfold sanitizeCore
    rw [if_pos (by decide)]
  · intro s hs hp
    unfold sanitizeCore
    by_cases h0 : s.isEmpty
    · rw [if_pos h0]
      have he : s = "" := (String.isEmpty_iff s).mp h0
      subst he
      rfl
    · rw [if_neg h0, if_neg (by omega), hp]

/-- Claim C7: `set(k, v, ttl)` followed by `get(k)` before the ttl has
elapsed returns `v`, for any prior state and any fault outcome of the
slower tiers — because the in-process memory tier is written first
within `set` (second conjunct) and probed first within `get`. -/
theorem claim_C7 (st : CMState) (key value : String) (ttl t1 t2 : Int)
    (sf : SetFaults) (gf : GetFaults) (h : t2 - t1 < ttl) :
    (cmGet (cmSet st key value ttl t1 sf).2 key t2 gf).1 = some value ∧
    (cmSet st key value ttl t1 sf).2.memory
      = ainsert (normalizeKey key) ⟨value, t1, ttl⟩ st.memory := by
  have hmem := cmSet_memory st key value ttl t1 sf
  refine ⟨?_, hmem⟩
  unfold cmGet
  rw [hmem]
  have hexp : isExpired (⟨value, t1, ttl⟩ : CacheEntry) t2 = false := by
    simp [isExpired]
    omega
  simp [alookup_ainsert, hexp]

/-- Claim C9: key normalization maps keys longer than 250 characters to
a fixed-width (64-character) content hash, other keys to the
space-to-underscore, lower-cased form; normalization is idempotent,
produces no spaces, and `get`/`set`/`delete` treat two keys with the
same normal form identically. -/
theorem claim_C9 :
    (∀ k : String, 250 < k.length →
        normalizeKey k = sha256hex k ∧ (normalizeKey k).length = 64) ∧
    (∀ k : String, k.length ≤ 250 →
        normalizeKey k = ⟨lcL (k.data.map fun c => if c = ' ' then '_' else c)⟩) ∧
    (∀ k : String, normalizeKey (normalizeKey k) = normalizeKey k) ∧
    (∀ k : String, ∀ c ∈ (normalizeKey k).data, c ≠ ' ') ∧
    (∀ (st : CMState) (k1 k2 : String) (now : Int) (gf : GetFaults)
        (value : String) (ttl t : Int) (sf : SetFaults),
        normalizeKey k1 = normalizeKey k2 →
        cmGet st k1 now gf = cmGet st k2 now gf ∧
        cmSet st k1 value ttl t sf = cmSet st k2 value ttl t sf ∧
        cmDelete st k1 = cmDelete st k2) := by
  refine ⟨?_, ?_, normalizeKey_idem, normalizeKey_no_space, ?_⟩
  · intro k h
    constructor
    · unfold normalizeKey; rw [if_pos h]
    · unfold normalizeKey; rw [if_pos h]; exact sha256hex_length k
  · exact normalizeKey_short
  · intro st k1 k2 now gf value ttl t sf h
    refine ⟨?_, ?_, ?_⟩
    · unfold cmGet; rw [h]
    · unfold cmSet; rw [h]
    · unfold cmDelete; rw [h]

/-- Claim C9, witnessed at a concrete 251-character key (long-key
branch) and at the pair `"A B"`/`"a b"` (identical normal forms). -/
theorem claim_C9_witness :
    (normalizeKey longKeyW = sha256hex longKeyW ∧ (normalizeKey longKeyW).length = 64) ∧
    cmGet (initState true true) "A B" 0 noGetFaults
      = cmGet (initState true true) "a b" 0 noGetFaults :=
  ⟨claim_C9.1 longKeyW
      (by
        have h : longKeyW.length = 251 := by
          show (List.replicate 251 'A').length = 251
          rw [List.length_replicate]
        omega),
   (claim_C9.2.2.2.2 (initState true true) "A B" "a b" 0 noGetFaults "" 0 0
      noSetFaults (by decide)).1⟩

/-- Claim C7, witnessed with both slower-tier writes failing. -/
theorem claim_C7_witness :
    (cmGet (cmSet (initState true true) "K 1" "v" 5 100 ⟨true, true⟩).2 "K 1" 104 noGetFaults).1
      = some "v" :=
  (claim_C7 (initState true true) "K 1" "v" 5 100 104 ⟨true, true⟩ noGetFaults (by decide)).1

/-- Claim C4, witnessed at a length-3 limit. -/
theorem claim_C4_witness :
    (sanitizeCore structuralPasses 3 "abcd" = .error .contentTooLarge) ∧
    ¬(sanitizeCore structuralPasses 3 "ab" = .error .contentTooLarge) :=
  ⟨(claim_C4 structuralPasses 3 "abcd").mpr (by decide),
   fun h => by
      have h1 := (claim_C4 structuralPasses 3 "ab").mp h
      have h2 : ("ab" : String).length = 2 := rfl
      omega⟩

/-- Claim C5, witnessed with failing library passes: the fallback
strips the markup. -/
theorem claim_C5_witness :
    sanitizeCore (fun _ => none) 5 "<b>a" = .ok (stripAllMarkup "<b>a") :=
  (claim_C5 (fun _ => none) 5).2.2.2 "<b>a" (by decide) rfl

/-! ### Claim C10 — statistics consistency -/


theorem redisPhase_stats (st : CMState) (k : String) (now : Int) (f : GetFaults) :
    statsDelta st (redisPhase st k now f).2 := by
  unfold redisPhase missResult
  by_cases h1 : (st.redisAvail && !f.redisGetRaises) = true
  · rw [if_pos h1]
    cases hl : alookup k st.redis with
    | none => simp [statsDelta]
    | some e =>
        by_cases h2 : isExpired e now = true
        · simp [h2, statsDelta]
        · by_cases h3 : st.diskAvail = true
          · by_cases h4 : f.diskPromoteRaises = true
            · simp [h2, h3, h4, statsDelta]
            · simp [h2, h3, h4, statsDelta]
          · simp [h2, h3, statsDelta]
  · rw [if_neg h1]
    simp [statsDelta]

theorem diskPhase_stats (st : CMState) (k : String) (now : Int) (f : GetFaults) :
    statsDelta st (diskPhase st k now f).2 := by
  unfold diskPhase
  by_cases h1 : (st.diskAvail && !f.diskGetRaises) = true
  · rw [if_pos h1]
    cases hl : alookup k st.disk with
    | none => exact redisPhase_stats st k now f
    | some e =>
        by_cases h2 : isExpired e now = true
        · simp only [h2, if_pos]
          exact redisPhase_stats st k now f
        · simp [h2, statsDelta]
  · rw [if_neg h1]
    exact redisPhase_stats st k now f

theorem statsDelta_of_eq (st stm st2 : CMState)
    (h : stm.hits = st.hits ∧ stm.misses = st.misses ∧ stm.memoryHits = st.memoryHits ∧
      stm.diskHits = st.diskHits ∧ stm.redisHits = st.redisHits)
    (hd : statsDelta stm st2) : statsDelta st st2 := by
  unfold statsDelta at hd ⊢
  obtain ⟨h1, h2, h3, h4, h5⟩ := h
  rw [h1, h2, h3, h4, h5] at hd
  exact hd

theorem cmGet_stats (st : CMState) (key : String) (now : Int) (f : GetFaults) :
    statsDelta st (cmGet st key now f).2 := by
  unfold cmGet
  cases hl : alookup (normalizeKey key) st.memory with
  | none => exact diskPhase_stats st _ now f
  | some e =>
      by_cases h2 : isExpired e now = true
      · simp only [h2, if_pos]
        exact statsDelta_of_eq st _ _ (by simp) (diskPhase_stats _ _ now f)
      · simp [h2, statsDelta]


theorem cmSet_stats (st : CMState) (key value : String) (ttl now : Int) (f : SetFaults) :
    statsEq st (cmSet st key value ttl now f).2 := by
  unfold cmSet statsEq
  dsimp only
  split <;> split <;> simp

theorem cmDelete_stats (st : CMState) (key : String) :
    statsEq st (cmDelete st key).2 := by
  unfold cmDelete statsEq
  dsimp only
  split <;> split <;> simp

theorem stepOp_consistent (st : CMState) (op : CacheOp) (h : statsConsistent st) :
    statsConsistent (stepOp st op) := by
  cases op with
  | get k now f =>
      have hd := cmGet_stats st k now f
      unfold statsConsistent at h ⊢
      simp only [stepOp]
      rcases hd with ⟨h1, h2, ⟨a, b, c⟩ | ⟨a, b, c⟩ | ⟨a, b, c⟩⟩ | ⟨h1, h2, h3, h4, h5⟩ <;>
        omega
  | set k v ttl now f =>
      have hd := cmSet_stats st k v ttl now f
      unfold statsEq at hd
      unfold statsConsistent at h ⊢
      simp only [stepOp]
      omega
  | del k =>
      have hd := cmDelete_stats st k
      unfold statsEq at hd
      unfold statsConsistent at h ⊢
      simp only [stepOp]
      omega
  | clear => exact h
  | cleanup now => exact h

theorem runOps_consistent_aux (ops : List CacheOp) :
    ∀ st : CMState, statsConsistent st → statsConsistent (runOps st ops) := by
  induction ops with
  | nil => intro st h; exact h
  | cons op rest ih => intro st h; exact ih _ (stepOp_consistent st op h)

/-- Claim C10: after any sequence of operations on a fresh
`CacheManager`, `stats['hits']` equals
`memory_hits + disk_hits + redis_hits`; and every single `get` either
counts one hit (together with exactly one per-tier hit counter) or one
miss, never both, for any tier availability and any fault outcome. -/
theorem claim_C10 :
    (∀ (da ra : Bool) (ops : List CacheOp),
        statsConsistent (runOps (initState da ra) ops)) ∧
    (∀ (st : CMState) (key : String) (now : Int) (f : GetFaults),
        statsDelta st (cmGet st key now f).2) := by
  constructor
  · intro da ra ops
    exact runOps_consistent_aux ops _ rfl
  · exact cmGet_stats

/-! ### Claim C3 — expiry handling during `get` -/

theorem alookup_aerase (k : String) (l : List (String × CacheEntry)) :
    alookup k (aerase k l) = none := by
  induction l with
  | nil => rfl
  | cons p rest ih =>
      rcases p with ⟨k2, e2⟩
      by_cases h : k2 = k
      · simpa [aerase, h] using ih
      · simp only [aerase, if_neg h, alookup]
        exact ih

theorem redisPhase_miss_of_expired (st : CMState) (k : String) (now : Int) (f : GetFaults)
    (hr : st.redisAvail = true → ∀ e, alookup k st.redis = some e → isExpired e now = true) :
    (redisPhase st k now f).1 = none := by
  unfold redisPhase missResult
  by_cases h1 : (st.redisAvail && !f.redisGetRaises) = true
  · rw [if_pos h1]
    cases hl : alookup k st.redis with
    | none => rfl
    | some e =>
        have hra : st.redisAvail = true := ((Bool.and_eq_true _ _).mp h1).1
        dsimp only
        rw [hr hra e hl]
        simp
  · rw [if_neg h1]

theorem diskPhase_miss_of_expired (st : CMState) (k : String) (now : Int) (f : GetFaults)
    (hd : st.diskAvail = true → ∀ e, alookup k st.disk = some e → isExpired e now = true)
    (hr : st.redisAvail = true → ∀ e, alookup k st.redis = some e → isExpired e now = true) :
    (diskPhase st k now f).1 = none := by
  unfold diskPhase
  by_cases h1 : (st.diskAvail && !f.diskGetRaises) = true
  · rw [if_pos h1]
    cases hl : alookup k st.disk with
    | none => exact redisPhase_miss_of_expired st k now f hr
    | some e =>
        have hda : st.diskAvail = true := ((Bool.and_eq_true _ _).mp h1).1
        dsimp only
        rw [hd hda e hl]
        simp
        exact redisPhase_miss_of_expired st k now f hr
  · rw [if_neg h1]
    exact redisPhase_miss_of_expired st k now f hr

theorem cmSet_proj_nofault (st : CMState) (key value : String) (ttl now : Int) :
    (cmSet st key value ttl now noSetFaults).2.diskAvail = st.diskAvail ∧
    (cmSet st key value ttl now noSetFaults).2.redisAvail = st.redisAvail ∧
    (st.diskAvail = true →
      (cmSet st key value ttl now noSetFaults).2.disk
        = ainsert (normalizeKey key) ⟨value, now, ttl⟩ st.disk) ∧
    (st.redisAvail = true →
      (cmSet st key value ttl now noSetFaults).2.redis
        = ainsert (normalizeKey key) ⟨value, now, ttl⟩ st.redis) := by
  unfold cmSet noSetFaults
  dsimp only
  split <;> split <;> simp_all

theorem cmGet_none_after_expired_set (st : CMState) (key value : String)
    (ttl t1 t2 : Int) (gf : GetFaults) (h : ttl < t2 - t1) :
    (cmGet (cmSet st key value ttl t1 noSetFaults).2 key t2 gf).1 = none := by
  have hmem := cmSet_memory st key value ttl t1 noSetFaults
  obtain ⟨hda, hra, hdisk, hredis⟩ := cmSet_proj_nofault st key value ttl t1
  have hexp : isExpired (⟨value, t1, ttl⟩ : CacheEntry) t2 = true := by
    simp [isExpired]
    omega
  unfold cmGet
  rw [hmem, alookup_ainsert]
  dsimp only
  rw [hexp, if_pos rfl]
  apply diskPhase_miss_of_expired
  · intro hdav e he
    have hst : st.diskAvail = true := by rw [← hda]; exact hdav
    rw [hdisk hst, alookup_ainsert] at he
    cases he
    exact hexp
  · intro hrav e he
    have hst : st.redisAvail = true := by rw [← hra]; exact hrav
    rw [hredis hst, alookup_ainsert] at he
    cases he
    exact hexp

theorem cmGet_expired_memory_erase (st : CMState) (key : String) (now : Int)
    (f : GetFaults) (e : CacheEntry)
    (hm : alookup (normalizeKey key) st.memory = some e)
    (hexp : isExpired e now = true) :
    cmGet st key now f
      = cmGet { st with memory := aerase (normalizeKey key) st.memory } key now f := by
  unfold cmGet
  dsimp only
  rw [hm, alookup_aerase]
  dsimp only
  rw [hexp, if_pos rfl]

theorem cmGet_expired_disk_kept (st : CMState) (key : String) (now : Int)
    (f : GetFaults) (e : CacheEntry)
    (hm : alookup (normalizeKey key) st.memory = none)
    (hda : st.diskAvail = true) (hdf : f.diskGetRaises = false)
    (hd : alookup (normalizeKey key) st.disk = some e)
    (hexp : isExpired e now = true) (hra : st.redisAvail = false) :
    (cmGet st key now f).1 = none ∧
    (cmGet st key now f).2.disk = st.disk ∧
    (cmGet st key now f).2.misses = st.misses + 1 := by
  unfold cmGet
  rw [hm]
  dsimp only
  unfold diskPhase
  rw [hda, hdf]
  simp only [Bool.not_false, Bool.and_true, if_pos rfl]
  rw [hd]
  dsimp only
  rw [hexp, if_pos rfl]
  unfold redisPhase missResult
  rw [hra]
  simp only [Bool.false_and, Bool.and_eq_true, if_neg]
  exact ⟨rfl, rfl, rfl⟩


/-- Claim C3 (counterexample): probing an expired entry in the disk
tier does not delete it — after the miss, the expired entry is still
present in the disk tier, contradicting "it deletes that entry from
that tier" for every tier. -/
theorem claim_C3_counterexample :
    (cmGet c3State "k" 10 noGetFaults).1 = none ∧
    alookup "k" (cmGet c3State "k" 10 noGetFaults).2.disk = some ⟨"v", 0, 1⟩ ∧
    isExpired ⟨"v", 0, 1⟩ 10 = true :=
  ⟨rfl, rfl, rfl⟩

/-- Claim C3 (amended): an expired entry found in the memory tier is
deleted and the probe continues exactly as on the deleted state; an
expired entry found in the disk tier is skipped — the probe continues
to the next tier and counts a miss, but the disk entry is left in
place; nevertheless, an entry `set` with ttl `t` (with all tier writes
succeeding) yields the default on any `get` more than `t` seconds
later. -/
theorem claim_C3_amended :
    (∀ (st : CMState) (key : String) (now : Int) (f : GetFaults) (e : CacheEntry),
        alookup (normalizeKey key) st.memory = some e →
        isExpired e now = true →
        cmGet st key now f
          = cmGet { st with memory := aerase (normalizeKey key) st.memory } key now f) ∧
    (∀ (st : CMState) (key : String) (now : Int) (f : GetFaults) (e : CacheEntry),
        alookup (normalizeKey key) st.memory = none →
        st.diskAvail = true → f.diskGetRaises = false →
        alookup (normalizeKey key) st.disk = some e → isExpired e now = true →
        st.redisAvail = false →
        (cmGet st key now f).1 = none ∧
        (cmGet st key now f).2.disk = st.disk ∧
        (cmGet st key now f).2.misses = st.misses + 1) ∧
    (∀ (st : CMState) (key value : String) (ttl t1 t2 : Int) (gf : GetFaults),
        ttl < t2 - t1 →
        (cmGet (cmSet st key value ttl t1 noSetFaults).2 key t2 gf).1 = none) :=
  ⟨cmGet_expired_memory_erase, cmGet_expired_disk_kept,
   fun st key value ttl t1 t2 gf h => cmGet_none_after_expired_set st key value ttl t1 t2 gf h⟩

/-- Claim C3 (amended), witnessed at the concrete expired-disk state
and at a concrete expired set-then-get. -/
theorem claim_C3_witness :
    ((cmGet c3State "k" 10 noGetFaults).2.disk = c3State.disk ∧
      (cmGet c3State "k" 10 noGetFaults).2.misses = c3State.misses + 1) ∧
    (cmGet (cmSet (initState true true) "w" "v" 1 0 noSetFaults).2 "w" 10 noGetFaults).1 = none :=
  ⟨⟨(claim_C3_amended.2.1 c3State "k" 10 noGetFaults ⟨"v", 0, 1⟩ rfl rfl rfl rfl rfl rfl).2.1,
    (claim_C3_amended.2.1 c3State "k" 10 noGetFaults ⟨"v", 0, 1⟩ rfl rfl rfl rfl rfl rfl).2.2⟩,
   claim_C3_amended.2.2 (initState true true) "w" "v" 1 0 10 noGetFaults (by decide)⟩

/-! ### Claim C8 — idempotence of `sanitize` -/

/-- Claim C8 (counterexample): `sanitize` is not idempotent.  On
`alalert(x)ert(y)` the single `re.sub` pass for `alert\s*\(.*?\)`
removes the inner `alert(x)` and thereby splices the surrounding
fragments into a fresh `alert(y)`, which a second `sanitize` removes:
`sanitize(x) = "alert(y)"` but `sanitize(sanitize(x)) = ""`. -/
theorem claim_C8_counterexample :
    sanitize "alalert(x)ert(y)" = .ok "alert(y)" ∧
    sanitize "alert(y)" ≠ .ok "alert(y)" :=
  ⟨rfl, fun h => by
    have h2 : (Except.ok "" : Except SanitizeError String) = .ok "alert(y)" := h
    have h3 : ("" : String) = "alert(y)" := by injection h2
    exact absurd h3 (by decide)⟩

/-- Claim C8 (amended): `sanitize` is idempotent exactly on the inputs
whose sanitized output is left unchanged by each stage — within the
length limit, a fixed point of the structural passes, and a fixed
point of the final regex sweep.  On such already-clean output a second
`sanitize` is a no-op; in general a substitution pass can splice its
surroundings into a fresh match, and idempotence fails. -/
theorem claim_C8_amended (pass2 : String → Option String) (maxLen : Nat)
    (x y : String) (_hx : sanitizeCore pass2 maxLen x = .ok y)
    (h2 : y.length ≤ maxLen) (h3 : pass2 y = some y) (h4 : finalSweep y = y) :
    sanitizeCore pass2 maxLen y = .ok y := by
  unfold sanitizeCore
  by_cases h0 : y.isEmpty
  · rw [if_pos h0]
    have he : y = "" := (String.isEmpty_iff y).mp h0
    rw [he]
  · rw [if_neg h0, if_neg (by omega), h3]
    dsimp only
    rw [h4]

/-- Claim C8 (amended), witnessed on `"hello"`, whose output `"hello"`
is a fixed point of every stage. -/
theorem claim_C8_witness :
    sanitizeCore structuralPasses maxTextLength "hello" = .ok "hello" :=
  claim_C8_amended structuralPasses maxTextLength "hello" "hello" rfl
    (by decide) rfl rfl

/-! ### Claim C1 — fail-closed removal of dangerous literals -/

theorem prefCI_append_self (p x : List Char) : prefCI p (p ++ x) = true := by
  unfold prefCI lcL
  rw [List.map_append]
  exact List.isPrefixOf_iff_prefix.mpr (List.prefix_append _ _)

theorem occursCI_tail (p : List Char) (c : Char) (rest : List Char)
    (h : occursCI p (c :: rest) = false) : occursCI p rest = false := by
  unfold occursCI at h
  exact (Bool.or_eq_false_iff.mp h).2

theorem subAllFuel_litM_id (p : List Char) :
    ∀ (fuel : Nat) (s : List Char), s.length ≤ fuel →
    occursCI p s = false → subAllFuel (litM p) fuel s = s := by
  intro fuel
  induction fuel with
  | zero =>
      intro s hs _
      cases s with
      | nil => rfl
      | cons c rest => simp at hs
  | succ f ih =>
      intro s hs hocc
      cases s with
      | nil => rfl
      | cons c rest =>
          have hpref : prefCI p (c :: rest) = false :=
            (Bool.or_eq_false_iff.mp hocc).1
          have hrest : occursCI p rest = false :=
            (Bool.or_eq_false_iff.mp hocc).2
          have hlen : rest.length ≤ f := by
            simp only [List.length_cons] at hs
            omega
          have hm : litM p (c :: rest) = none := by
            unfold litM
            rw [hpref, if_neg (by decide : ¬(false = true))]
          unfold subAllFuel
          rw [hm]
          dsimp only
          rw [ih rest hlen hrest]

theorem subAllFuel_litM_single (p : List Char) (hp : p ≠ []) :
    ∀ (a : List Char) (fuel : Nat) (b : List Char),
      (a ++ p ++ b).length ≤ fuel →
      (∀ i, i < a.length → prefCI p ((a ++ p ++ b).drop i) = false) →
      occursCI p (a ++ b) = false →
      subAllFuel (litM p) fuel (a ++ p ++ b) = a ++ b := by
  intro a
  induction a with
  | nil =>
      intro fuel b hlen _ hocc
      simp only [List.nil_append] at hlen hocc ⊢
      cases p with
      | nil => exact absurd rfl hp
      | cons ph pt =>
          cases fuel with
          | zero => simp at hlen
          | succ f =>
              have hm : litM (ph :: pt) ((ph :: pt) ++ b) = some (pt.length + 1) := by
                unfold litM
                rw [prefCI_append_self]
                simp
              show subAllFuel (litM (ph :: pt)) (f + 1) (ph :: (pt ++ b)) = b
              unfold subAllFuel
              rw [show litM (ph :: pt) (ph :: (pt ++ b)) = some (pt.length + 1) from hm]
              dsimp only
              rw [List.drop_left]
              apply subAllFuel_litM_id
              · simp only [List.length_cons, List.length_append] at hlen
                omega
              · exact hocc
  | cons c a2 ih =>
      intro fuel b hlen hpref hocc
      cases fuel with
      | zero => simp at hlen
      | succ f =>
          have h0 : prefCI p (c :: (a2 ++ p ++ b)) = false := by
            have h := hpref 0 (by simp)
            simpa using h
          have hm : litM p (c :: (a2 ++ p ++ b)) = none := by
            unfold litM
            rw [h0, if_neg (by decide : ¬(false = true))]
          show subAllFuel (litM p) (f + 1) (c :: (a2 ++ p ++ b)) = c :: (a2 ++ b)
          unfold subAllFuel
          rw [hm]
          dsimp only
          rw [ih f b
            (by simp only [List.length_cons, List.length_append] at hlen ⊢; omega)
            (fun i hi => by
              have h := hpref (i + 1) (by simp only [List.length_cons]; omega)
              simpa using h)
            (occursCI_tail p c (a2 ++ b) (by simpa using hocc))]

/-- Claim C1 (counterexample): the input `javajavascript:script:`
contains the literal `javascript:`, and so does the sanitized output —
the single `re.sub` pass removes the inner occurrence and splices the
surrounding fragments into a new one.  (Text handlers other than the
quoted `onclick=`/`onerror=` forms, such as `onload=`, are not in the
pattern list at all.) -/
theorem claim_C1_counterexample :
    containsCI "javajavascript:script:" "javascript:" = true ∧
    sanitize "javajavascript:script:" = .ok "javascript:" ∧
    containsCI "javascript:" "javascript:" = true :=
  ⟨rfl, rfl, rfl⟩

/-- Claim C1 (amended): the final sweep removes dangerous literals by
one non-overlapping left-to-right substitution pass per pattern.  A
text free of `javascript:` is left unchanged by that pass, and a text
containing `javascript:` exactly once, at a position where removal
cannot splice the surrounding fragments into a new occurrence, comes
out with the occurrence removed and hence free of the literal; but the
output of `sanitize` is not in general free of `javascript:` (or of
`on*=` handlers other than quoted `onclick=`/`onerror=`). -/
theorem claim_C1_amended :
    (∀ s : String, occursCI "javascript:".data s.data = false →
        subJavascript s = s) ∧
    (∀ a b : String,
        occursCI "javascript:".data (a.data ++ b.data) = false →
        (∀ i, i < a.data.length →
          prefCI "javascript:".data
            ((a.data ++ "javascript:".data ++ b.data).drop i) = false) →
        subJavascript (a ++ "javascript:" ++ b) = a ++ b) := by
  constructor
  · intro s h
    cases s with
    | mk d =>
        show String.mk (subAllFuel (litM "javascript:".data) d.length d) = ⟨d⟩
        rw [subAllFuel_litM_id _ _ _ (Nat.le_refl _) h]
  · intro a b h1 h2
    cases a with
    | mk da =>
        cases b with
        | mk db =>
            show String.mk
              (subAllFuel (litM "javascript:".data)
                (da ++ "javascript:".data ++ db).length
                (da ++ "javascript:".data ++ db)) = ⟨da ++ db⟩
            rw [subAllFuel_litM_single "javascript:".data (by decide) da _ db
              (Nat.le_refl _) h2 h1]

/-- Claim C1 (amended), witnessed at a non-splicing occurrence. -/
theorem claim_C1_witness :
    subJavascript ("x " ++ "javascript:" ++ " y") = "x " ++ " y" :=
  claim_C1_amended.2 "x " " y" (by decide) (by decide)


/-! ### Claim C6 — CSS property allow-list soundness -/

theorem splitOnSemi_ne_nil (x : List Char) : splitOnSemi x ≠ [] := by
  cases x with
  | nil => simp [splitOnSemi]
  | cons c rest =>
      by_cases h : c = ';'
      · simp [splitOnSemi, h]
      · simp only [splitOnSemi, if_neg h]
        cases splitOnSemi rest <;> simp

theorem splitOnSemi_mem_no_semi :
    ∀ (x : List Char), ∀ p ∈ splitOnSemi x, ';' ∉ p := by
  intro x
  induction x with
  | nil => intro p hp; simp [splitOnSemi] at hp; simp [hp]
  | cons c rest ih =>
      intro p hp
      by_cases h : c = ';'
      · simp only [splitOnSemi, if_pos h] at hp
        rcases List.mem_cons.mp hp with rfl | hp2
        · simp
        · exact ih p hp2
      · simp only [splitOnSemi, if_neg h] at hp
        cases hsp : splitOnSemi rest with
        | nil => exact absurd hsp (splitOnSemi_ne_nil rest)
        | cons piece more =>
            rw [hsp] at hp
            rcases List.mem_cons.mp hp with rfl | hp2
            · intro hmem
              rcases List.mem_cons.mp hmem with rfl | hmem2
              · exact h rfl
              · exact ih piece (by rw [hsp]; simp) hmem2
            · exact ih p (by rw [hsp]; simp [hp2])

theorem splitOnSemi_mem_subset :
    ∀ (x : List Char), ∀ p ∈ splitOnSemi x, ∀ c ∈ p, c ∈ x := by
  intro x
  induction x with
  | nil => intro p hp c hc; simp [splitOnSemi] at hp; subst hp; simp at hc
  | cons a rest ih =>
      intro p hp c hc
      by_cases h : a = ';'
      · simp only [splitOnSemi, if_pos h] at hp
        rcases List.mem_cons.mp hp with rfl | hp2
        · simp at hc
        · exact List.mem_cons_of_mem _ (ih p hp2 c hc)
      · simp only [splitOnSemi, if_neg h] at hp
        cases hsp : splitOnSemi rest with
        | nil => exact absurd hsp (splitOnSemi_ne_nil rest)
        | cons piece more =>
            rw [hsp] at hp
            rcases List.mem_cons.mp hp with rfl | hp2
            · rcases List.mem_cons.mp hc with rfl | hc2
              · simp
              · exact List.mem_cons_of_mem _ (ih piece (by rw [hsp]; simp) c hc2)
            · exact List.mem_cons_of_mem _ (ih p (by rw [hsp]; simp [hp2]) c hc)

theorem splitOnSemi_no_semi (x : List Char) (h : ';' ∉ x) : splitOnSemi x = [x] := by
  induction x with
  | nil => rfl
  | cons c rest ih =>
      have hc : ¬(c = ';') := fun hc => h (by simp [hc])
      have hrest : ';' ∉ rest := fun hm => h (List.mem_cons_of_mem _ hm)
      simp only [splitOnSemi, if_neg hc, ih hrest]

theorem splitOnSemi_append (x y : List Char) (h : ';' ∉ x) :
    splitOnSemi (x ++ ';' :: y) = x :: splitOnSemi y := by
  induction x with
  | nil => simp [splitOnSemi]
  | cons c rest ih =>
      have hc : ¬(c = ';') := fun hc => h (by simp [hc])
      have hrest : ';' ∉ rest := fun hm => h (List.mem_cons_of_mem _ hm)
      simp only [List.cons_append, splitOnSemi, if_neg hc, List.append_eq]
      rw [ih hrest]



theorem beforeColon_no_colon : ∀ (x : List Char), ':' ∉ beforeColon x := by
  intro x
  induction x with
  | nil => simp [beforeColon]
  | cons c rest ih =>
      by_cases h : c = ':'
      · simp [beforeColon, h]
      · simp only [beforeColon, if_neg h]
        intro hm
        rcases List.mem_cons.mp hm with rfl | hm2
        · exact h rfl
        · exact ih hm2

theorem beforeColon_subset : ∀ (x : List Char), ∀ c ∈ beforeColon x, c ∈ x := by
  intro x
  induction x with
  | nil => simp [beforeColon]
  | cons a rest ih =>
      intro c hc
      by_cases h : a = ':'
      · simp [beforeColon, h] at hc
      · simp only [beforeColon, if_neg h] at hc
        rcases List.mem_cons.mp hc with rfl | hc2
        · simp
        · exact List.mem_cons_of_mem _ (ih c hc2)

theorem afterColon_subset :
    ∀ (x v : List Char), afterColon x = some v → ∀ c ∈ v, c ∈ x := by
  intro x
  induction x with
  | nil => intro v hv; simp [afterColon] at hv
  | cons a rest ih =>
      intro v hv c hc
      by_cases h : a = ':'
      · simp only [afterColon, if_pos h] at hv
        cases hv
        exact List.mem_cons_of_mem _ hc
      · simp only [afterColon, if_neg h] at hv
        exact List.mem_cons_of_mem _ (ih v hv c hc)

theorem afterColon_none (x : List Char) (h : ':' ∉ x) : afterColon x = none := by
  induction x with
  | nil => rfl
  | cons a rest ih =>
      have ha : ¬(a = ':') := fun hc => h (by simp [hc])
      simp only [afterColon, if_neg ha]
      exact ih (fun hm => h (List.mem_cons_of_mem _ hm))

theorem afterColon_append (x y : List Char) (h : ':' ∉ x) :
    afterColon (x ++ y) = afterColon y := by
  induction x with
  | nil => rfl
  | cons a rest ih =>
      have ha : ¬(a = ':') := fun hc => h (by simp [hc])
      simp only [List.cons_append, afterColon, if_neg ha]
      exact ih (fun hm => h (List.mem_cons_of_mem _ hm))

theorem beforeColon_append (x y : List Char) (h : ':' ∉ x) :
    beforeColon (x ++ y) = x ++ beforeColon y := by
  induction x with
  | nil => rfl
  | cons a rest ih =>
      have ha : ¬(a = ':') := fun hc => h (by simp [hc])
      simp only [List.cons_append, beforeColon, if_neg ha, List.append_eq]
      rw [ih (fun hm => h (List.mem_cons_of_mem _ hm))]

theorem trimL_space_append (pre x : List Char) (h : ∀ c ∈ pre, c = ' ') :
    trimL (pre ++ x) = trimL x := by
  induction pre with
  | nil => rfl
  | cons a rest ih =>
      have ha : a = ' ' := h a (by simp)
      subst ha
      simp only [List.cons_append, trimL, List.dropWhile]
      rw [show isWS ' ' = true from rfl]
      exact ih (fun c hc => h c (List.mem_cons_of_mem _ hc))

theorem trimL_mem (x : List Char) : ∀ c ∈ trimL x, c ∈ x := by
  intro c hc
  exact List.dropWhile_subset _ hc

theorem trimR_mem (x : List Char) : ∀ c ∈ trimR x, c ∈ x := by
  intro c hc
  unfold trimR at hc
  rw [List.mem_reverse] at hc
  have h2 := trimL_mem x.reverse c hc
  rwa [List.mem_reverse] at h2

theorem trimB_mem (x : List Char) : ∀ c ∈ trimB x, c ∈ x :=
  fun c hc => trimL_mem x c (trimR_mem (trimL x) c hc)



theorem dropWhile_idem (p : Char → Bool) (l : List Char) :
    List.dropWhile p (List.dropWhile p l) = List.dropWhile p l := by
  induction l with
  | nil => rfl
  | cons c rest ih =>
      by_cases h : p c = true
      · rw [List.dropWhile_cons_of_pos h]
        exact ih
      · rw [List.dropWhile_cons_of_neg h, List.dropWhile_cons_of_neg h]

theorem trimL_idem (x : List Char) : trimL (trimL x) = trimL x :=
  dropWhile_idem isWS x

theorem trimR_idem (x : List Char) : trimR (trimR x) = trimR x := by
  unfold trimR
  rw [List.reverse_reverse, trimL_idem]

theorem trimR_prefix (w : List Char) : ∃ t, trimR w ++ t = w := by
  refine ⟨(w.reverse.takeWhile isWS).reverse, ?_⟩
  unfold trimR trimL
  rw [← List.reverse_append, List.takeWhile_append_dropWhile, List.reverse_reverse]

theorem trimL_head_not_ws (w : List Char) (h : trimL w = w) :
    w = [] ∨ ∃ d ds, w = d :: ds ∧ isWS d = false := by
  cases hw : w with
  | nil => exact Or.inl rfl
  | cons d ds =>
      right
      refine ⟨d, ds, rfl, ?_⟩
      by_cases hd : isWS d = true
      · exfalso
        rw [hw] at h
        rw [show trimL (d :: ds) = trimL ds from by
              unfold trimL; rw [List.dropWhile_cons_of_pos hd]] at h
        have hlen : (trimL ds).length ≤ ds.length := by
          unfold trimL
          exact (List.dropWhile_sublist _).length_le
        rw [h] at hlen
        simp at hlen
      · simpa using hd

theorem trimL_trimR_of_fixed (w : List Char) (h : trimL w = w) :
    trimL (trimR w) = trimR w := by
  obtain ⟨t, ht⟩ := trimR_prefix w
  cases htr : trimR w with
  | nil => rfl
  | cons d ds =>
      rcases trimL_head_not_ws w h with hnil | ⟨d2, ds2, hw2, hd2⟩
      · exfalso
        rw [hnil] at htr
        exact absurd htr (by simp [trimR, trimL])
      · have : d = d2 := by
          rw [htr] at ht
          rw [hw2] at ht
          have := congrArg (List.head?) ht
          simpa using this
        subst this
        unfold trimL
        rw [List.dropWhile_cons_of_neg (by rw [hd2]; simp)]

theorem trimB_idem (x : List Char) : trimB (trimB x) = trimB x := by
  show trimR (trimL (trimR (trimL x))) = trimR (trimL x)
  rw [trimL_trimR_of_fixed (trimL x) (trimL_idem x), trimR_idem]

theorem trimB_space_append (pre w : List Char) (h : ∀ c ∈ pre, c = ' ') :
    trimB (pre ++ trimB w) = trimB w := by
  show trimR (trimL (pre ++ trimB w)) = trimB w
  rw [trimL_space_append pre _ h]
  exact trimB_idem w



theorem urlSubM_rep_subset (s : List Char) (n : Nat) (rep : List Char)
    (h : urlSubM s = some (n, rep)) : ∀ c ∈ rep, c ∈ s := by
  unfold urlSubM at h
  dsimp only at h
  split at h
  · split at h
    · split at h
      · split at h
        · cases h
        · rw [Option.some.injEq, Prod.mk.injEq] at h
          obtain ⟨hn, hrep⟩ := h
          intro c hc
          rw [← hrep] at hc
          split at hc
          · exact List.take_subset _ _ hc
          · simp at hc
      · cases h
    · cases h
  · cases h

theorem subRepFuel_urlSubM_subset :
    ∀ (fuel : Nat) (s : List Char), ∀ c ∈ subRepFuel urlSubM fuel s, c ∈ s := by
  intro fuel
  induction fuel with
  | zero =>
      intro s c hc
      cases s with
      | nil => simp [subRepFuel] at hc
      | cons a rest => simp [subRepFuel] at hc
  | succ f ih =>
      intro s c hc
      cases s with
      | nil => simp [subRepFuel] at hc
      | cons a rest =>
          unfold subRepFuel at hc
          cases hm : urlSubM (a :: rest) with
          | none =>
              rw [hm] at hc
              dsimp only at hc
              rcases List.mem_cons.mp hc with rfl | hc2
              · simp
              · exact List.mem_cons_of_mem _ (ih rest c hc2)
          | some pr =>
              rcases pr with ⟨l, rep⟩
              cases l with
              | zero =>
                  rw [hm] at hc
                  dsimp only at hc
                  rcases List.mem_cons.mp hc with rfl | hc2
                  · simp
                  · exact List.mem_cons_of_mem _ (ih rest c hc2)
              | succ l2 =>
                  rw [hm] at hc
                  dsimp only at hc
                  rcases List.mem_append.mp hc with hc1 | hc2
                  · exact urlSubM_rep_subset (a :: rest) (l2 + 1) rep hm c hc1
                  · have := ih (rest.drop l2) c hc2
                    exact List.mem_cons_of_mem _ (List.drop_subset _ _ this)

theorem sanitizeValue_subset (raw : List Char) :
    ∀ c ∈ sanitizeValue raw, c ∈ raw := by
  intro c hc
  unfold sanitizeValue at hc
  dsimp only at hc
  split at hc
  · simp at hc
  · unfold validatePropertySpecific at hc
    dsimp only at hc
    have hsub : ∀ d ∈ trimB (subRepFuel urlSubM (trimB raw).length (trimB raw)), d ∈ raw :=
      fun d hd =>
        trimB_mem raw d (subRepFuel_urlSubM_subset _ _ d (trimB_mem _ d hd))
    split at hc
    · exact hsub c (List.take_subset _ _ hc)
    · split at hc
      · exact hsub c (List.mem_of_mem_filter hc)
      · exact hsub c hc



theorem parseDeclList_props (cs : List Char) :
    ∀ d ∈ parseDeclList cs,
      (∃ w, d.1 = trimB w) ∧ ':' ∉ d.1 ∧ ';' ∉ d.1 ∧ ';' ∉ d.2 ∧
      (∀ c ∈ d.1, c ∈ cs) ∧ (∀ c ∈ d.2, c ∈ cs) := by
  intro d hd
  unfold parseDeclList at hd
  rw [List.mem_filterMap] at hd
  obtain ⟨seg, hseg, hfm⟩ := hd
  cases hac : afterColon seg with
  | none => rw [hac] at hfm; cases hfm
  | some v =>
      rw [hac] at hfm
      dsimp only at hfm
      cases hfm
      refine ⟨⟨beforeColon seg, rfl⟩, ?_, ?_, ?_, ?_, ?_⟩
      · intro hc
        exact beforeColon_no_colon seg (trimB_mem _ _ hc)
      · intro hc
        exact splitOnSemi_mem_no_semi cs seg hseg
          (beforeColon_subset seg _ (trimB_mem _ _ hc))
      · intro hc
        exact splitOnSemi_mem_no_semi cs seg hseg (afterColon_subset seg v hac _ hc)
      · intro c hc
        exact splitOnSemi_mem_subset cs seg hseg c
          (beforeColon_subset seg c (trimB_mem _ c hc))
      · intro c hc
        exact splitOnSemi_mem_subset cs seg hseg c (afterColon_subset seg v hac c hc)

theorem sanitizeDeclPairs_props (cs : List Char) :
    ∀ d ∈ sanitizeDeclPairs cs,
      isAllowedProp d.1 = true ∧ (∃ w, d.1 = trimB w) ∧
      ':' ∉ d.1 ∧ ';' ∉ d.1 ∧ ';' ∉ d.2 ∧
      (∀ c ∈ d.1, c ∈ cs) ∧ (∀ c ∈ d.2, c ∈ cs) := by
  intro d hd
  unfold sanitizeDeclPairs at hd
  rw [List.mem_filterMap] at hd
  obtain ⟨d0, hd0, hfm⟩ := hd
  obtain ⟨hex, hnc, hns1, hns2, hsub1, hsub2⟩ := parseDeclList_props cs d0 hd0
  split at hfm
  · dsimp only at hfm
    split at hfm
    · cases hfm
    · rename_i hallow hne
      cases hfm
      refine ⟨hallow, hex, hnc, hns1, ?_, hsub1, ?_⟩
      · intro hc
        exact hns2 (sanitizeValue_subset d0.2 _ hc)
      · intro c hc
        exact hsub2 c (sanitizeValue_subset d0.2 c hc)
  · cases hfm



theorem space_ne (c0 : Char) (hc0 : c0 ≠ ' ') (l : List Char)
    (h : ∀ c ∈ l, c = ' ') : c0 ∉ l :=
  fun hm => hc0 (h c0 hm)

theorem head_decl (pre nm v w : List Char)
    (hpre : ∀ c ∈ pre, c = ' ') (hw : nm = trimB w) (hnc : ':' ∉ nm) :
    afterColon (pre ++ (nm ++ ':' :: v)) = some v ∧
    trimB (beforeColon (pre ++ (nm ++ ':' :: v))) = nm := by
  have hnc2 : ':' ∉ pre ++ nm := by
    intro hm
    rcases List.mem_append.mp hm with h1 | h1
    · exact absurd (hpre _ h1) (by decide)
    · exact hnc h1
  have hsh : pre ++ (nm ++ ':' :: v) = (pre ++ nm) ++ (':' :: v) := by
    simp [List.append_assoc]
  constructor
  · rw [hsh, afterColon_append _ _ hnc2]
    simp [afterColon]
  · rw [hsh, beforeColon_append _ _ hnc2]
    rw [show beforeColon (':' :: v) = [] from by simp [beforeColon]]
    rw [List.append_nil, hw, trimB_space_append pre w hpre]

theorem parseDeclList_render :
    ∀ (ps : List (List Char × List Char)) (pre suf : List Char),
      (∀ c ∈ pre, c = ' ') → (∀ c ∈ suf, c = ' ') →
      (∀ d ∈ ps, isAllowedProp d.1 = true ∧ (∃ w, d.1 = trimB w) ∧
        ':' ∉ d.1 ∧ ';' ∉ d.1 ∧ ';' ∉ d.2) →
      ∀ d ∈ parseDeclList (pre ++ renderDecls ps ++ suf),
        isAllowedProp d.1 = true := by
  intro ps
  induction ps with
  | nil =>
      intro pre suf hpre hsuf _ d hd
      exfalso
      unfold parseDeclList at hd
      rw [List.mem_filterMap] at hd
      obtain ⟨seg, hseg, hfm⟩ := hd
      have hnc : ':' ∉ (pre ++ renderDecls [] ++ suf : List Char) := by
        intro hm
        rcases List.mem_append.mp hm with h1 | h1
        · rcases List.mem_append.mp h1 with h2 | h2
          · exact absurd (hpre _ h2) (by decide)
          · simp [renderDecls] at h2
        · exact absurd (hsuf _ h1) (by decide)
      have hone : afterColon seg = none :=
        afterColon_none seg
          (fun hm => hnc (splitOnSemi_mem_subset _ seg hseg ':' hm))
      rw [hone] at hfm
      cases hfm
  | cons p ps2 ih =>
      intro pre suf hpre hsuf hps d hd
      obtain ⟨hall, ⟨w, hw⟩, hnc1, hns1, hns2⟩ := hps p (by simp)
      cases ps2 with
      | nil =>
          -- whole input is a single segment
          have hsemi : ';' ∉ (pre ++ renderDecls [p] ++ suf : List Char) := by
            intro hm
            rcases List.mem_append.mp hm with h1 | h1
            · rcases List.mem_append.mp h1 with h2 | h2
              · exact absurd (hpre _ h2) (by decide)
              · unfold renderDecls at h2
                rcases List.mem_append.mp h2 with h3 | h3
                · exact hns1 h3
                · rcases List.mem_cons.mp h3 with h4 | h4
                  · exact absurd h4 (by decide)
                  · rcases List.mem_cons.mp h4 with h5 | h5
                    · exact absurd h5 (by decide)
                    · exact hns2 h5
            · exact absurd (hsuf _ h1) (by decide)
          unfold parseDeclList at hd
          rw [List.mem_filterMap] at hd
          obtain ⟨seg, hseg, hfm⟩ := hd
          rw [splitOnSemi_no_semi _ hsemi] at hseg
          rcases List.mem_singleton.mp hseg with rfl
          have hshape : (pre ++ renderDecls [p] ++ suf : List Char)
              = pre ++ (p.1 ++ ':' :: ' ' :: (p.2 ++ suf)) := by
            unfold renderDecls
            simp [List.append_assoc]
          obtain ⟨hac, hbc⟩ := head_decl pre p.1 (' ' :: (p.2 ++ suf)) w hpre hw hnc1
          rw [hshape] at hfm
          rw [hac] at hfm
          dsimp only at hfm
          cases hfm
          simpa [hbc] using hall
      | cons q qs =>
          have hshape : (pre ++ renderDecls (p :: q :: qs) ++ suf : List Char)
              = (pre ++ (p.1 ++ ':' :: ' ' :: p.2)) ++ ';' ::
                  (' ' :: renderDecls (q :: qs) ++ suf) := by
            show pre ++ ((p.1 ++ ':' :: ' ' :: p.2) ++ ';' :: ' ' :: renderDecls (q :: qs)) ++ suf = _
            simp [List.append_assoc]
          have hx : ';' ∉ (pre ++ (p.1 ++ ':' :: ' ' :: p.2) : List Char) := by
            intro hm
            rcases List.mem_append.mp hm with h1 | h1
            · exact absurd (hpre _ h1) (by decide)
            · rcases List.mem_append.mp h1 with h2 | h2
              · exact hns1 h2
              · rcases List.mem_cons.mp h2 with h3 | h3
                · exact absurd h3 (by decide)
                · rcases List.mem_cons.mp h3 with h4 | h4
                  · exact absurd h4 (by decide)
                  · exact hns2 h4
          unfold parseDeclList at hd
          rw [List.mem_filterMap] at hd
          obtain ⟨seg, hseg, hfm⟩ := hd
          rw [hshape, splitOnSemi_append _ _ hx] at hseg
          rcases List.mem_cons.mp hseg with rfl | hseg2
          · -- the head declaration
            obtain ⟨hac, hbc⟩ := head_decl pre p.1 (' ' :: p.2) w hpre hw hnc1
            rw [hac] at hfm
            dsimp only at hfm
            cases hfm
            simpa [hbc] using hall
          · -- a later declaration: appeal to the induction hypothesis
            have hd2 : d ∈ parseDeclList ([' '] ++ renderDecls (q :: qs) ++ suf) := by
              unfold parseDeclList
              rw [List.mem_filterMap]
              exact ⟨seg, by simpa using hseg2, hfm⟩
            exact ih [' '] suf (by simp) hsuf
              (fun d2 hd2m => hps d2 (List.mem_cons_of_mem _ hd2m)) d hd2


theorem span_brace (x z : List Char) (hx : '\x7b' ∉ x) :
    (x ++ '\x7b' :: z).takeWhile (· ≠ '\x7b') = x := by
  rw [List.takeWhile_append_of_pos (by
    intro a ha
    simp only [ne_eq, decide_not]
    by_cases hab : a = '\x7b'
    · exact absurd (hab ▸ ha) hx
    · simp [hab])]
  rw [show ('\x7b' :: z).takeWhile (· ≠ '\x7b') = [] from by
    simp [List.takeWhile]]
  rw [List.append_nil]

theorem span_brace2 (x z : List Char) (hx : '\x7d' ∉ x) :
    (x ++ '\x7d' :: z).takeWhile (· ≠ '\x7d') = x := by
  rw [List.takeWhile_append_of_pos (by
    intro a ha
    by_cases hab : a = '\x7d'
    · exact absurd (hab ▸ ha) hx
    · simp [hab])]
  rw [show ('\x7d' :: z).takeWhile (· ≠ '\x7d') = [] from by
    simp [List.takeWhile]]
  rw [List.append_nil]



theorem takeWhile_all (p : Char → Bool) (l : List Char) (h : ∀ a ∈ l, p a) :
    l.takeWhile p = l := by
  induction l with
  | nil => rfl
  | cons c rest ih =>
      rw [List.takeWhile_cons_of_pos (h c (by simp))]
      rw [ih (fun a ha => h a (List.mem_cons_of_mem _ ha))]

theorem parseRulesFuel_no_open (fuel : Nat) (s : List Char)
    (h : '\x7b' ∉ s) : parseRulesFuel fuel s = [] := by
  cases fuel with
  | zero => rfl
  | succ f =>
      unfold parseRulesFuel
      dsimp only
      rw [takeWhile_all _ s (by
        intro a ha
        by_cases hab : a = '\x7b'
        · exact absurd (hab ▸ ha) h
        · simp [hab])]
      rw [List.drop_length]

theorem parseRules_joinNL :
    ∀ (rs : List (List Char × List Char)) (pre : List Char) (fuel : Nat),
      '\x7b' ∉ pre → '\x7d' ∉ pre →
      (∀ r ∈ rs, '\x7b' ∉ r.1 ∧ '\x7d' ∉ r.1 ∧ '\x7d' ∉ r.2) →
      rs.length ≤ fuel →
      (parseRulesFuel fuel (pre ++ joinNL (rs.map renderRule))).map Prod.snd
        = rs.map (fun r => ' ' :: r.2 ++ [' ']) := by
  intro rs
  induction rs with
  | nil =>
      intro pre fuel hp1 _ _ _
      simp only [List.map_nil, joinNL, List.append_nil]
      rw [parseRulesFuel_no_open fuel pre hp1]
      rfl
  | cons r rest ih =>
      intro pre fuel hp1 hp2 hrs hfuel
      obtain ⟨hr1, hr2, hr3⟩ := hrs r (by simp)
      cases fuel with
      | zero => simp at hfuel
      | succ f =>
          have hX : '\x7b' ∉ (pre ++ r.1 ++ [' '] : List Char) := by
            intro hm
            rcases List.mem_append.mp hm with h1 | h1
            · rcases List.mem_append.mp h1 with h2 | h2
              · exact hp1 h2
              · exact hr1 h2
            · simp at h1
          have hB : '\x7d' ∉ (' ' :: r.2 ++ [' '] : List Char) := by
            intro hm
            rcases List.mem_cons.mp hm with h1 | h1
            · exact absurd h1 (by decide)
            · rcases List.mem_append.mp h1 with h2 | h2
              · exact hr3 h2
              · simp at h2
          -- the tail after the closing brace of the first rule
          have key : ∀ T : List Char,
              pre ++ joinNL ((r :: rest).map renderRule)
                = (pre ++ r.1 ++ [' ']) ++ '\x7b' ::
                    ((' ' :: r.2 ++ [' ']) ++ '\x7d' :: T) →
              (parseRulesFuel (f + 1) (pre ++ joinNL ((r :: rest).map renderRule))).map Prod.snd
                = (' ' :: r.2 ++ [' ']) ::
                    (parseRulesFuel f T).map Prod.snd := by
            intro T hshape
            rw [hshape]
            rw [parseRulesFuel]
            dsimp only
            rw [span_brace _ _ hX, List.drop_left]
            dsimp only
            rw [span_brace2 _ _ hB, List.drop_left]
            dsimp only
            rw [List.map_cons]
          cases rest with
          | nil =>
              rw [key []
                (by
                  simp only [List.map_cons, List.map_nil, joinNL, renderRule]
                  simp [List.append_assoc])]
              rw [show parseRulesFuel f [] = [] from by cases f <;> rfl]
              rfl
          | cons r2 rest2 =>
              rw [key ('\n' :: joinNL ((r2 :: rest2).map renderRule))
                (by
                  simp only [List.map_cons, joinNL, renderRule]
                  simp [List.append_assoc])]
              have := ih ['\n'] f (by decide) (by decide)
                (fun r0 h0 => hrs r0 (List.mem_cons_of_mem _ h0))
                (by simp only [List.length_cons] at hfuel ⊢; simpa using Nat.lt_succ_iff.mp (Nat.lt_of_lt_of_le (Nat.lt_succ_self _) hfuel))
              simp only [List.singleton_append] at this
              rw [this]
              rfl



theorem renderDecls_mem (ps : List (List Char × List Char)) :
    ∀ c ∈ renderDecls ps,
      c = ':' ∨ c = ' ' ∨ c = ';' ∨ ∃ d ∈ ps, c ∈ d.1 ∨ c ∈ d.2 := by
  induction ps with
  | nil => simp [renderDecls]
  | cons p ps2 ih =>
      intro c hc
      cases ps2 with
      | nil =>
          unfold renderDecls at hc
          rcases List.mem_append.mp hc with h1 | h1
          · exact Or.inr (Or.inr (Or.inr ⟨p, by simp, Or.inl h1⟩))
          · rcases List.mem_cons.mp h1 with rfl | h2
            · exact Or.inl rfl
            · rcases List.mem_cons.mp h2 with rfl | h3
              · exact Or.inr (Or.inl rfl)
              · exact Or.inr (Or.inr (Or.inr ⟨p, by simp, Or.inr h3⟩))
      | cons q qs =>
          unfold renderDecls at hc
          rcases List.mem_append.mp hc with h1 | h1
          · rcases List.mem_append.mp h1 with h2 | h2
            · exact Or.inr (Or.inr (Or.inr ⟨p, by simp, Or.inl h2⟩))
            · rcases List.mem_cons.mp h2 with rfl | h3
              · exact Or.inl rfl
              · rcases List.mem_cons.mp h3 with rfl | h4
                · exact Or.inr (Or.inl rfl)
                · exact Or.inr (Or.inr (Or.inr ⟨p, by simp, Or.inr h4⟩))
          · rcases List.mem_cons.mp h1 with rfl | h2
            · exact Or.inr (Or.inr (Or.inl rfl))
            · rcases List.mem_cons.mp h2 with rfl | h3
              · exact Or.inr (Or.inl rfl)
              · rcases ih c h3 with h | h | h | ⟨d, hd, hmem⟩
                · exact Or.inl h
                · exact Or.inr (Or.inl h)
                · exact Or.inr (Or.inr (Or.inl h))
                · exact Or.inr (Or.inr (Or.inr ⟨d, List.mem_cons_of_mem _ hd, hmem⟩))

theorem sanitizeInline_mem (cs : List Char) :
    ∀ c ∈ sanitizeInline cs, c = ':' ∨ c = ' ' ∨ c = ';' ∨ c ∈ cs := by
  intro c hc
  rcases renderDecls_mem _ c hc with h | h | h | ⟨d, hd, hmem⟩
  · exact Or.inl h
  · exact Or.inr (Or.inl h)
  · exact Or.inr (Or.inr (Or.inl h))
  · obtain ⟨_, _, _, _, _, hs1, hs2⟩ := sanitizeDeclPairs_props cs d hd
    rcases hmem with hm | hm
    · exact Or.inr (Or.inr (Or.inr (hs1 c hm)))
    · exact Or.inr (Or.inr (Or.inr (hs2 c hm)))

theorem parseRulesFuel_props (fuel : Nat) :
    ∀ (s : List Char), ∀ r ∈ parseRulesFuel fuel s,
      '\x7b' ∉ r.1 ∧ '\x7d' ∉ r.1 ∧ '\x7d' ∉ r.2 := by
  induction fuel with
  | zero => intro s r hr; simp [parseRulesFuel] at hr
  | succ f ih =>
      intro s r hr
      rw [parseRulesFuel] at hr
      dsimp only at hr
      cases hdrop : s.drop (s.takeWhile (· ≠ '\x7b')).length with
      | nil => rw [hdrop] at hr; simp at hr
      | cons a rest1 =>
          rw [hdrop] at hr
          dsimp only at hr
          cases hdrop2 : rest1.drop (rest1.takeWhile (· ≠ '\x7d')).length with
          | nil => rw [hdrop2] at hr; simp at hr
          | cons b rest2 =>
              rw [hdrop2] at hr
              dsimp only at hr
              rcases List.mem_cons.mp hr with rfl | hr2
              · refine ⟨?_, ?_, ?_⟩
                · intro hm
                  rw [List.mem_reverse] at hm
                  have h2 := List.takeWhile_subset _ hm
                  rw [List.mem_reverse] at h2
                  exact absurd (List.mem_takeWhile_imp h2) (by simp)
                · intro hm
                  rw [List.mem_reverse] at hm
                  exact absurd (List.mem_takeWhile_imp hm) (by simp)
                · intro hm
                  exact absurd (List.mem_takeWhile_imp hm) (by simp)
              · exact ih rest2 r hr2

theorem styleRules_props (cs : List Char) :
    ∀ r ∈ styleRules cs,
      ('\x7b' ∉ r.1 ∧ '\x7d' ∉ r.1 ∧ '\x7d' ∉ r.2) ∧
      ∃ body, r.2 = renderDecls (sanitizeDeclPairs body) := by
  intro r hr
  unfold styleRules at hr
  rw [List.mem_filterMap] at hr
  obtain ⟨r0, hr0, hfm⟩ := hr
  obtain ⟨hb1, hb2, hb3⟩ := parseRulesFuel_props _ _ r0 hr0
  dsimp only at hfm
  split at hfm
  · split at hfm
    · cases hfm
    · cases hfm
      refine ⟨⟨?_, ?_, ?_⟩, ⟨r0.2, rfl⟩⟩
      · intro hm; exact hb1 (trimB_mem _ _ hm)
      · intro hm; exact hb2 (trimB_mem _ _ hm)
      · intro hm
        rcases renderDecls_mem _ _ hm with h | h | h | ⟨d, hd, hmem⟩
        · exact absurd h (by decide)
        · exact absurd h (by decide)
        · exact absurd h (by decide)
        · obtain ⟨_, _, _, _, _, hs1, hs2⟩ := sanitizeDeclPairs_props r0.2 d hd
          rcases hmem with hm2 | hm2
          · exact hb3 (hs1 _ hm2)
          · exact hb3 (hs2 _ hm2)
  · cases hfm

theorem joinNL_renderRule_length (rs : List (List Char × List Char)) :
    rs.length ≤ (joinNL (rs.map renderRule)).length := by
  induction rs with
  | nil => simp [joinNL]
  | cons r rest ih =>
      cases rest with
      | nil =>
          simp only [List.map_cons, List.map_nil, joinNL, renderRule,
            List.length_cons, List.length_nil, List.length_append]
          omega
      | cons q qs =>
          simp only [List.map_cons] at ih ⊢
          rw [show joinNL (renderRule r :: renderRule q :: List.map renderRule qs)
              = renderRule r ++ '\n' :: joinNL (renderRule q :: List.map renderRule qs) from rfl]
          simp only [List.length_cons] at ih ⊢
          simp only [List.length_append, List.length_cons]
          omega

theorem joinNL_head_mem (x : List Char) (xs : List (List Char)) :
    ∀ c ∈ x, c ∈ joinNL (x :: xs) := by
  intro c hc
  cases xs with
  | nil => exact hc
  | cons y ys => exact List.mem_append.mpr (Or.inl hc)



/-- Claim C6: every `property: value` declaration present in the
output of `sanitize_css` — whether the output is an inline declaration
list or rule bodies of a stylesheet — has a case-folded, stripped
property name that belongs to `allowed_properties`; no declaration
with a non-whitelisted property survives. -/
theorem claim_C6 (s : String) :
    ∀ d ∈ cssOutputDecls (sanitizeCss s), isAllowedProp d.1 = true := by
  intro d hd
  unfold sanitizeCss at hd
  split at hd
  · rw [show cssOutputDecls "" = [] from rfl] at hd
    exact absurd hd (List.not_mem_nil d)
  · split at hd
    · rw [show cssOutputDecls "" = [] from rfl] at hd
      exact absurd hd (List.not_mem_nil d)
    · split at hd
      · -- stylesheet branch
        rename_i hbraces
        cases hsr : styleRules s.data with
        | nil =>
            rw [show (⟨sanitizeStylesheet s.data⟩ : String)
                = ⟨joinNL ((styleRules s.data).map renderRule)⟩ from rfl, hsr] at hd
            rw [show cssOutputDecls ⟨joinNL (List.map renderRule [])⟩ = [] from rfl] at hd
            exact absurd hd (List.not_mem_nil d)
        | cons r rs =>
            have hprops : ∀ r0 ∈ styleRules s.data,
                '\x7b' ∉ r0.1 ∧ '\x7d' ∉ r0.1 ∧ '\x7d' ∉ r0.2 :=
              fun r0 h0 => (styleRules_props s.data r0 h0).1
            have hodata : (⟨sanitizeStylesheet s.data⟩ : String).data
                = joinNL ((styleRules s.data).map renderRule) := rfl
            have hbrace1 : '\x7b' ∈ (⟨sanitizeStylesheet s.data⟩ : String).data := by
              rw [hodata, hsr]
              exact joinNL_head_mem _ _ _ (by simp [renderRule])
            have hbrace2 : '\x7d' ∈ (⟨sanitizeStylesheet s.data⟩ : String).data := by
              rw [hodata, hsr]
              exact joinNL_head_mem _ _ _ (by simp [renderRule])
            unfold cssOutputDecls at hd
            rw [if_pos (by
              rw [Bool.and_eq_true]
              exact ⟨List.elem_iff.mpr hbrace1, List.elem_iff.mpr hbrace2⟩)] at hd
            rw [List.mem_flatMap] at hd
            obtain ⟨r0, hr0, hdecl⟩ := hd
            have hfuel : (styleRules s.data).length
                ≤ (⟨sanitizeStylesheet s.data⟩ : String).data.length := by
              rw [hodata]
              exact joinNL_renderRule_length _
            have hround := parseRules_joinNL (styleRules s.data) []
              (⟨sanitizeStylesheet s.data⟩ : String).data.length
              (by simp) (by simp) hprops hfuel
            simp only [List.nil_append] at hround
            have hmm : r0.2 ∈ (parseRulesFuel
                (⟨sanitizeStylesheet s.data⟩ : String).data.length
                (⟨sanitizeStylesheet s.data⟩ : String).data).map Prod.snd :=
              List.mem_map_of_mem _ hr0
            rw [show (⟨sanitizeStylesheet s.data⟩ : String).data
                = joinNL ((styleRules s.data).map renderRule) from rfl] at hmm
            rw [show (sanitizeStylesheet s.data).length
                = (joinNL ((styleRules s.data).map renderRule)).length from rfl] at hround
            rw [hround] at hmm
            rw [List.mem_map] at hmm
            obtain ⟨rr, hrr, hbody⟩ := hmm
            obtain ⟨_, body0, hb⟩ := styleRules_props s.data rr hrr
            rw [← hbody, hb] at hdecl
            have hfix : (' ' :: renderDecls (sanitizeDeclPairs body0) ++ [' '] : List Char)
                = [' '] ++ renderDecls (sanitizeDeclPairs body0) ++ [' '] := rfl
            rw [hfix] at hdecl
            exact parseDeclList_render (sanitizeDeclPairs body0) [' '] [' ']
              (by simp) (by simp)
              (fun d2 hd2 => by
                obtain ⟨a, b, c, e, f, _, _⟩ := sanitizeDeclPairs_props body0 d2 hd2
                exact ⟨a, b, c, e, f⟩) d hdecl
      · -- inline branch
        rename_i hnotboth
        unfold cssOutputDecls at hd
        by_cases hbr : ((⟨sanitizeInline s.data⟩ : String).data.contains '\x7b' &&
            (⟨sanitizeInline s.data⟩ : String).data.contains '\x7d') = true
        · exfalso
          rw [Bool.and_eq_true] at hbr
          have hm1 : '\x7b' ∈ s.data := by
            rcases sanitizeInline_mem s.data '\x7b' (List.elem_iff.mp hbr.1) with
              h | h | h | h
            · exact absurd h (by decide)
            · exact absurd h (by decide)
            · exact absurd h (by decide)
            · exact h
          have hm2 : '\x7d' ∈ s.data := by
            rcases sanitizeInline_mem s.data '\x7d' (List.elem_iff.mp hbr.2) with
              h | h | h | h
            · exact absurd h (by decide)
            · exact absurd h (by decide)
            · exact absurd h (by decide)
            · exact h
          exact hnotboth (by
            rw [Bool.and_eq_true]
            exact ⟨List.elem_iff.mpr hm1, List.elem_iff.mpr hm2⟩)
        · rw [if_neg hbr] at hd
          have hmain := parseDeclList_render (sanitizeDeclPairs s.data) [] []
            (by simp) (by simp)
            (fun d2 hd2 => by
              obtain ⟨a, b, c, e, f, _, _⟩ := sanitizeDeclPairs_props s.data d2 hd2
              exact ⟨a, b, c, e, f⟩)
          simp only [List.nil_append, List.append_nil] at hmain
          exact hmain d hd

/-- Claim C6, witnessed on a concrete inline input. -/
theorem claim_C6_witness : isAllowedProp ("color".data) = true :=
  claim_C6 "color: red" ("color".data, " red".data) (by decide)

end HtmlConv
